import Mathlib

/-!
fftCPP: radix-2 FFT, recursive and iterative.

Shallow embedding of `shk_complex.h` and `fft.cpp`.

* `double` is replaced by an exact commutative ring `R`, so `Complex R` is the class `Complex`
  with exact arithmetic.
* `Exp(Complex(0.0,-2*PI/N))` is transcendental and is taken as a parameter `W : Int → Complex R`.
* `int` is a 32-bit two's-complement integer: arithmetic that can leave the range goes through
  `wrap32`. After the length has been validated no loop variable exceeds `2^30`, and the
  counters and indices are `Nat`.
* Raw arrays are lists; `a[i]` is `a.getD i 0` as a value and `a.set i v` as an assignment.
* `assert` aborts the call: `Outcome.assertion_failed`.
* Statements about which cells a loop touches are made on traces: definitions with the loop
  structure of the source whose bodies record the indices (`butterfly_accesses`,
  `recursive_accesses`, `recursive_calls`).
-/

namespace shk

/-- The class `Complex` of `shk_complex.h`: a real and an imaginary part. -/
@[ext]
structure Complex (R : Type) where
  real : R
  imag : R
deriving DecidableEq

namespace Complex
variable {R : Type}

instance [Zero R] : Zero (Complex R) := ⟨⟨0, 0⟩⟩
instance [Zero R] [One R] : One (Complex R) := ⟨⟨1, 0⟩⟩
instance [Add R] : Add (Complex R) := ⟨fun a z => ⟨a.real + z.real, a.imag + z.imag⟩⟩
instance [Sub R] : Sub (Complex R) := ⟨fun a z => ⟨a.real - z.real, a.imag - z.imag⟩⟩
instance [Neg R] : Neg (Complex R) := ⟨fun a => ⟨-a.real, -a.imag⟩⟩
instance [Add R] [Sub R] [Mul R] : Mul (Complex R) :=
  ⟨fun a z => ⟨a.real * z.real - a.imag * z.imag, a.real * z.imag + a.imag * z.real⟩⟩

@[simp]
theorem zero_real [Zero R] : (0 : Complex R).real = 0 := rfl
@[simp]
theorem zero_imag [Zero R] : (0 : Complex R).imag = 0 := rfl
@[simp]
theorem one_real [Zero R] [One R] : (1 : Complex R).real = 1 := rfl
@[simp]
theorem one_imag [Zero R] [One R] : (1 : Complex R).imag = 0 := rfl
@[simp]
theorem add_real [Add R] (a z : Complex R) : (a + z).real = a.real + z.real := rfl
@[simp]
theorem add_imag [Add R] (a z : Complex R) : (a + z).imag = a.imag + z.imag := rfl
@[simp]
theorem sub_real [Sub R] (a z : Complex R) : (a - z).real = a.real - z.real := rfl
@[simp]
theorem sub_imag [Sub R] (a z : Complex R) : (a - z).imag = a.imag - z.imag := rfl
@[simp]
theorem neg_real [Neg R] (a : Complex R) : (-a).real = -a.real := rfl
@[simp]
theorem neg_imag [Neg R] (a : Complex R) : (-a).imag = -a.imag := rfl
@[simp]
theorem mul_real [Add R] [Sub R] [Mul R] (a z : Complex R) :
    (a * z).real = a.real * z.real - a.imag * z.imag := rfl
@[simp]
theorem mul_imag [Add R] [Sub R] [Mul R] (a z : Complex R) :
    (a * z).imag = a.real * z.imag + a.imag * z.real := rfl

instance [CommRing R] : CommRing (Complex R) where
  add_assoc a b c := by ext <;> simp <;> ring
  zero_add a := by ext <;> simp
  add_zero a := by ext <;> simp
  add_comm a b := by ext <;> simp <;> ring
  neg_add_cancel a := by ext <;> simp
  sub_eq_add_neg a b := by ext <;> simp <;> ring
  mul_assoc a b c := by ext <;> simp <;> ring
  one_mul a := by ext <;> simp
  mul_one a := by ext <;> simp
  left_distrib a b c := by ext <;> simp <;> ring
  right_distrib a b c := by ext <;> simp <;> ring
  zero_mul a := by ext <;> simp
  mul_zero a := by ext <;> simp
  mul_comm a b := by ext <;> simp <;> ring
  nsmul := nsmulRec
  zsmul := zsmulRec

/-- Division operator of the class: aborts (here `none`) when the squared modulus of the
divisor is zero, otherwise multiplies by the conjugate and divides both parts. -/
def div [Field R] [DecidableEq R] (a z : Complex R) : Option (Complex R) :=
  let denum := (z.real * z.real) + (z.imag * z.imag)
  if denum = 0 then none
  else
    let num_real := a.real * z.real + a.imag * z.imag
    let num_imag := a.imag * z.real - a.real * z.imag
    some ⟨num_real / denum, num_imag / denum⟩

end Complex

/-- Complex conjugate. -/
def Conj {R : Type} [Neg R] (z : Complex R) : Complex R := ⟨z.real, -z.imag⟩
/-- Real part. -/
def Re {R : Type} (z : Complex R) : R := z.real
/-- Imaginary part. -/
def Im {R : Type} (z : Complex R) : R := z.imag

/-- Largest value of the C type `int` (32 bits). -/
def INT_MAX : Int := 2147483647

/-- Two's-complement wraparound of a mathematical integer to a 32-bit `int`. -/
def wrap32 (x : Int) : Int := (x + 2147483648) % 4294967296 - 2147483648

/-- How a call ends: it returns, it aborts on a failed `assert` (the caller's output array is
carried as it stood at the abort), or the fuel given to its loops did not suffice. -/
inductive Outcome (α : Type) where
  | returned (value : α)
  | assertion_failed (output : α)
  | out_of_fuel
deriving DecidableEq

/-- The counted loop `for (int i = lo; i < hi; i++) body` as a fold over `lo, lo+1, .., hi-1`. -/
def for_loop {σ : Type} (lo hi : Nat) (body : Nat → σ → σ) (s : σ) : σ :=
  (List.range' lo (hi - lo)).foldl (fun s i => body i s) s

/-- The strided loop `for (int i = 0; i < N; i += p) body`; one unit of fuel per test of the
loop condition, `none` when the fuel is used up before the condition fails. -/
def for_step_loop {σ : Type} (N p : Nat) (body : Nat → σ → σ) : Nat → Nat → σ → Option σ
  | 0, _, _ => none
  | fuel + 1, i, s =>
    if i < N then for_step_loop N p body fuel (i + p) (body i s) else some s

/-- The loop `while (N<length) { N *= 2; Q++; }` on 32-bit ints; `none` when the fuel is used
up before the condition fails. -/
def length_loop (length : Int) : Nat → Int → Int → Option (Int × Int)
  | 0, _, _ => none
  | fuel + 1, N, Q =>
    if N < length then length_loop length fuel (wrap32 (N * 2)) (wrap32 (Q + 1)) else some (N, Q)

/-- Computes the bit-reversed version of an unsigned 32-bit integer. -/
def bit_reverse (index : Nat) (width : Int) : Nat :=
  (for_loop 0 width.toNat (fun _ (s : Nat × Nat) =>
    let result := (s.1 <<< 1) % 4294967296
    let result := result ||| (s.2 &&& 1)
    let index := s.2 >>> 1
    (result, index)) (0, index)).1

section transforms
variable {R : Type} [CommRing R]

/-- Twiddle table of `fft_recursive` (lines 56-60). -/
def WNk_recursive (WN : Complex R) (N : Int) : List (Complex R) :=
  let WNk : List (Complex R) := List.replicate (N / 2).toNat 0
  let WNk := WNk.set 0 ⟨1, 0⟩
  for_loop 1 (N / 2).toNat (fun k WNk => WNk.set k (WN * WNk.getD (k - 1) 0)) WNk

/-- Twiddle table of `fft_iterative` (lines 133-137). -/
def WNk_iterative (WN : Complex R) (N : Int) : List (Complex R) :=
  let WNk : List (Complex R) := List.replicate (N / 2).toNat 0
  let WNk := WNk.set 0 ⟨1, 0⟩
  for_loop 1 (N / 2).toNat (fun k WNk => WNk.set k (WN * WNk.getD (k - 1) 0)) WNk

/-- Recursive FFT. `W N` stands for `Exp(Complex(0.0,-2*PI/N))`; `out` is the caller's output
array before the call. Each call spends one unit of fuel on its nested calls. -/
def fft_recursive (W : Int → Complex R) :
    Nat → List (Complex R) → List (Complex R) → Int → Outcome (List (Complex R))
  | 0, _, _, _ => Outcome.out_of_fuel
  | fuel + 1, inp, out, length =>
    if length = 2 then
      let out := out.set 0 (inp.getD 0 0 + inp.getD 1 0)
      let out := out.set 1 (inp.getD 0 0 - inp.getD 1 0)
      Outcome.returned out
    else if ¬ (length > 2) then Outcome.assertion_failed out
    else
      match length_loop length (fuel + 1) 1 0 with
      | none => Outcome.out_of_fuel
      | some (N, _) =>
        if ¬ (N = length) then Outcome.assertion_failed out
        else
          let WN := W N
          let WNk := WNk_recursive WN N
          let half := (N / 2).toNat
          let XL : List (Complex R) := List.replicate half 0
          let XH : List (Complex R) := List.replicate half 0
          let G : List (Complex R) := List.replicate half 0
          let H : List (Complex R) := List.replicate half 0
          let XLH := for_loop 0 half (fun i (s : List (Complex R) × List (Complex R)) =>
            (s.1.set i (inp.getD (i * 2) 0), s.2.set i (inp.getD (i * 2 + 1) 0))) (XL, XH)
          match fft_recursive W fuel XLH.1 G (N / 2) with
          | Outcome.out_of_fuel => Outcome.out_of_fuel
          | Outcome.assertion_failed _ => Outcome.assertion_failed out
          | Outcome.returned G =>
            match fft_recursive W fuel XLH.2 H (N / 2) with
            | Outcome.out_of_fuel => Outcome.out_of_fuel
            | Outcome.assertion_failed _ => Outcome.assertion_failed out
            | Outcome.returned H =>
              Outcome.returned (for_loop 0 half (fun i out =>
                let temp := WNk.getD i 0 * H.getD i 0
                let out := out.set i (G.getD i 0 + temp)
                out.set (half + i) (G.getD i 0 - temp)) out)

/-- Loop variables and arrays of the stage loop of `fft_iterative`. -/
structure Stage (R : Type) where
  p : Nat
  k : Nat
  m : Nat
  X : List (Complex R)
  Y : List (Complex R)
  out : List (Complex R)

/-- One pass of the body of `for (int q=0; q<Q; q++)` in `fft_iterative`. -/
def stage_body (WNk : List (Complex R)) (N Q fuel : Nat) (q : Nat) (s : Stage R) :
    Option (Stage R) :=
  let p := s.p * 2
  let k := s.k
  let m := s.m
  let X := s.X
  match for_step_loop N p (fun i Y =>
      for_loop 0 k (fun j Y =>
        let n := i + j
        let XWNk := X.getD (n + k) 0 * WNk.getD (j * m) 0
        let Y := Y.set n (X.getD n 0 + XWNk)
        Y.set (n + k) (X.getD n 0 - XWNk)) Y) fuel 0 s.Y with
  | none => none
  | some Y =>
    let k := k * 2
    let m := m / 2
    if q < Q - 1 then
      some ⟨p, k, m, for_loop 0 N (fun i X => X.set i (Y.getD i 0)) X, Y, s.out⟩
    else
      some ⟨p, k, m, X, Y, for_loop 0 N (fun i out => out.set i (Y.getD i 0)) s.out⟩

/-- The working buffer of `fft_iterative` after `X = new Complex[N]` and the loop
`for (int i=0; i<N; i++) { X[i] = in[bit_reverse(i,Q)]; }`. -/
def bit_reversed_copy (inp : List (Complex R)) (N Q : Int) : List (Complex R) :=
  let X : List (Complex R) := List.replicate N.toNat 0
  for_loop 0 N.toNat (fun i X => X.set i (inp.getD (bit_reverse i Q) 0)) X

/-- Iterative FFT. `W N` stands for `Exp(Complex(0.0,-2*PI/N))`; `out` is the caller's output
array before the call; `fuel` bounds the while loop and every strided loop. -/
def fft_iterative (W : Int → Complex R) (fuel : Nat) (inp out : List (Complex R))
    (length : Int) : Outcome (List (Complex R)) :=
  if ¬ (length ≥ 2) then Outcome.assertion_failed out
  else
    match length_loop length fuel 1 0 with
    | none => Outcome.out_of_fuel
    | some (N, Q) =>
      if ¬ (N = length) then Outcome.assertion_failed out
      else
        let WN := W N
        let WNk := WNk_iterative WN N
        let X := bit_reversed_copy inp N Q
        let Y : List (Complex R) := List.replicate N.toNat 0
        match for_loop 0 Q.toNat (fun q s => s.bind (stage_body WNk N.toNat Q.toNat fuel q))
            (some ⟨1, 1, (N / 2).toNat, X, Y, out⟩) with
        | none => Outcome.out_of_fuel
        | some s => Outcome.returned s.out

end transforms

/-! ## Instrumentation of the loops and of the recursion -/

section stages
variable {R : Type} [CommRing R]

/-- The stage loop of `fft_iterative`, entered with the validated `N` and `Q`, cut after its
first `c` passes: the twiddle table, the bit-reversed copy, the buffer `Y`, then `c` passes of
`for (int q=0; q<Q; q++)`. -/
def stages_upto (W : Int → Complex R) (fuel : Nat) (inp out : List (Complex R))
    (N Q : Int) (c : Nat) : Option (Stage R) :=
  let WN := W N
  let WNk := WNk_iterative WN N
  let X := bit_reversed_copy inp N Q
  let Y : List (Complex R) := List.replicate N.toNat 0
  for_loop 0 c (fun q s => s.bind (stage_body WNk N.toNat Q.toNat fuel q))
    (some ⟨1, 1, (N / 2).toNat, X, Y, out⟩)

end stages

/-- The arrays `XL` and `XH` that `fft_recursive` builds from its input: `new Complex[N/2]`
twice and the loop `XL[i] = in[i*2]; XH[i] = in[i*2+1];`, for any element type. -/
def decimation_split {α : Type} (d : α) (inp : List α) (half : Nat) : List α × List α :=
  for_loop 0 half (fun i (s : List α × List α) =>
    (s.1.set i (inp.getD (i * 2) d), s.2.set i (inp.getD (i * 2 + 1) d)))
    (List.replicate half d, List.replicate half d)

/-- The entries of an input of length `2^q` in the order in which the recursion of
`fft_recursive` reaches them when the splitting is carried down to single entries: first those
of `XL`, then those of `XH`, each half in the order of its own recursion. -/
def decimation_order {α : Type} (d : α) : Nat → List α → List α
  | 0, inp => inp
  | q + 1, inp =>
    decimation_order d q (decimation_split d inp (2 ^ q)).1
      ++ decimation_order d q (decimation_split d inp (2 ^ q)).2

/-- The arrays of the two transforms. -/
inductive Arr where
  | inp
  | out
  | WNk
  | X
  | Y
  | XL
  | XH
  | G
  | H
deriving DecidableEq

/-- The array accesses of the butterfly loops of one stage of `fft_iterative`, in the order of
execution: per butterfly `X[n+k]`, `WNk[j*m]`, `X[n]`, `Y[n]`, `X[n]`, `Y[n+k]`. -/
def butterfly_accesses (N p k m fuel : Nat) : Option (List (Arr × Nat)) :=
  for_step_loop N p (fun i tr =>
    for_loop 0 k (fun j tr =>
      let n := i + j
      tr ++ [(Arr.X, n + k), (Arr.WNk, j * m), (Arr.X, n), (Arr.Y, n), (Arr.X, n),
        (Arr.Y, n + k)]) tr) fuel 0 []

/-- Declared sizes of the arrays of `fft_iterative` on a validated length `N`. -/
def iterative_size (N : Nat) : Arr → Nat
  | Arr.WNk => N / 2
  | Arr.inp => N
  | Arr.out => N
  | Arr.X => N
  | Arr.Y => N
  | _ => 0

/-- The indices at which a trace touches the array `a`. -/
def indices_of (a : Arr) (tr : List (Arr × Nat)) : List Nat :=
  (tr.filter (fun e => decide (e.1 = a))).map (fun e => e.2)

/-- The lengths of all calls of `fft_recursive` that a call with the given length makes,
itself first, following the control flow of `fft_recursive`. -/
def recursive_calls : Nat → Int → List Int
  | 0, _ => []
  | fuel + 1, length =>
    if length = 2 then [length]
    else if ¬ (length > 2) then [length]
    else
      match length_loop length (fuel + 1) 1 0 with
      | none => [length]
      | some (N, _) =>
        if ¬ (N = length) then [length]
        else length :: (recursive_calls fuel (N / 2) ++ recursive_calls fuel (N / 2))

/-- The array accesses of one call of `fft_recursive` of validated length `N`, nested calls
left out, in the order of execution: the base case for `N = 2`, else the table loop, the
splitting loop and the combining loop. -/
def recursive_accesses (N : Int) : List (Arr × Nat) :=
  if N = 2 then
    [(Arr.inp, 0), (Arr.inp, 1), (Arr.out, 0), (Arr.inp, 0), (Arr.inp, 1), (Arr.out, 1)]
  else
    let half := (N / 2).toNat
    let tr := [(Arr.WNk, 0)]
    let tr := for_loop 1 half (fun k tr => tr ++ [(Arr.WNk, k - 1), (Arr.WNk, k)]) tr
    let tr := for_loop 0 half (fun i tr =>
      tr ++ [(Arr.inp, i * 2), (Arr.XL, i), (Arr.inp, i * 2 + 1), (Arr.XH, i)]) tr
    for_loop 0 half (fun i tr =>
      tr ++ [(Arr.WNk, i), (Arr.H, i), (Arr.G, i), (Arr.out, i), (Arr.G, i),
        (Arr.out, half + i)]) tr

/-- Declared sizes of the arrays of a call of `fft_recursive` of validated length `N`. -/
def recursive_size (N : Int) : Arr → Nat
  | Arr.inp => N.toNat
  | Arr.out => N.toNat
  | Arr.WNk => (N / 2).toNat
  | Arr.XL => (N / 2).toNat
  | Arr.XH => (N / 2).toNat
  | Arr.G => (N / 2).toNat
  | Arr.H => (N / 2).toNat
  | _ => 0

/-! ## Specification-side definitions -/

/-- Radix-2 decimation-in-time recombination (spec, section 4.1) as a function on
sequences: `dit w q u t` is entry `t` of the transform of the first `2^q` terms of `u`, where
`w l` is the twiddle base of the level of length `2^l`. Level 0 is the identity on one sample. -/
def dit {K : Type} [CommRing K] (w : Nat → K) : Nat → (Nat → K) → Nat → K
  | 0, u, _ => u 0
  | q + 1, u, t =>
    if t < 2 ^ q then
      dit w q (fun i => u (i * 2)) t + w (q + 1) ^ t * dit w q (fun i => u (i * 2 + 1)) t
    else
      dit w q (fun i => u (i * 2)) (t - 2 ^ q)
        - w (q + 1) ^ (t - 2 ^ q) * dit w q (fun i => u (i * 2 + 1)) (t - 2 ^ q)

/-- Reversal of the `w` low-order bits as a recursion on the width (spec, section 4.3): the
lowest bit of `x` becomes bit `w` of the result, the other bits are reversed below it. -/
def brev : Nat → Nat → Nat
  | 0, _ => 0
  | w + 1, x => (x % 2) * 2 ^ w + brev w (x / 2)

/-- Stage invariant of `fft_iterative`: after `s` stages every block of `2^s` cells, the `b`-th
one, holds the level-`s` transform of the input samples `brev (Q-s) b + i * 2^(Q-s)`. -/
def Blocks {K : Type} [CommRing K] (w : Nat → K) (inp : List K) (Q s : Nat) (X : List K) :
    Prop :=
  ∀ b t, b < 2 ^ (Q - s) → t < 2 ^ s →
    X.getD (b * 2 ^ s + t) 0 = dit w s (fun i => inp.getD (brev (Q - s) b + i * 2 ^ (Q - s)) 0) t

/-- State of the stage loop of `fft_iterative` after `c` of the `Q` stages: the loop variables
are `p = k = 2^c` and `m = (N/2)/2^c`; before the last stage `out` is the caller's array and
`X` holds the blocks of level `c`; after the last stage `out` holds the level-`Q` transform. -/
def StageInv {R : Type} [CommRing R] (WN : Complex R) (inp out0 : List (Complex R))
    (Q c : Nat) (st : Stage R) : Prop :=
  st.p = 2 ^ c ∧ st.k = 2 ^ c ∧ st.m = 2 ^ (Q - 1) / 2 ^ c ∧
  st.X.length = 2 ^ Q ∧ st.Y.length = 2 ^ Q ∧
  (c < Q → st.out = out0 ∧ Blocks (fun l => WN ^ 2 ^ (Q - l)) inp Q c st.X) ∧
  (c = Q → st.out.length = out0.length ∧
    ∀ t, st.out.getD t 0 =
      if t < 2 ^ Q then dit (fun l => WN ^ 2 ^ (Q - l)) Q (fun i => inp.getD i 0) t
      else out0.getD t 0)

/-- The output array after a transform of length `2^Q` that follows the decimation-in-time
recursion with the bases `w`: the first `2^Q` cells are overwritten, the others are kept. -/
def dit_out {K : Type} [CommRing K] (w : Nat → K) (Q : Nat) (inp out : List K) : List K :=
  (List.range out.length).map (fun t =>
    if t < 2 ^ Q then dit w Q (fun i => inp.getD i 0) t else out.getD t 0)

/-- Exact values of `Exp(Complex(0.0,-2*PI/N))` for `N = 4`, which is `-i`, and for `N = 2`,
which is `-1` (returned for every other `N` as well). -/
def twiddle4 : Int → Complex ℚ := fun N => if N = 4 then ⟨0, -1⟩ else ⟨-1, 0⟩

/-! ## Arrays and counted loops -/

theorem getD_set_eq {α : Type} (a : List α) (i : Nat) (v d : α) (h : i < a.length) :
    (a.set i v).getD i d = v := by
  simp [List.getD_eq_getElem?_getD, List.getElem?_set, h]

theorem getD_set_ne {α : Type} (a : List α) (i j : Nat) (v d : α) (h : i ≠ j) :
    (a.set i v).getD j d = a.getD j d := by
  simp [List.getD_eq_getElem?_getD, List.getElem?_set, h]

theorem getD_replicate_zero {α : Type} (n i : Nat) (d : α) :
    (List.replicate n d).getD i d = d := by
  simp only [List.getD_eq_getElem?_getD, List.getElem?_replicate]
  split <;> rfl

theorem list_ext_getD {α : Type} (d : α) (a b : List α) (hl : a.length = b.length)
    (h : ∀ i, i < a.length → a.getD i d = b.getD i d) : a = b := by
  apply List.ext_getElem hl
  intro i h1 h2
  have := h i h1
  simpa [List.getD_eq_getElem?_getD, List.getElem?_eq_getElem h1, List.getElem?_eq_getElem h2]
    using this

theorem for_loop_self {σ : Type} (lo : Nat) (body : Nat → σ → σ) (s : σ) :
    for_loop lo lo body s = s := by
  simp [for_loop]

theorem for_loop_succ {σ : Type} (lo hi : Nat) (body : Nat → σ → σ) (s : σ) (h : lo ≤ hi) :
    for_loop lo (hi + 1) body s = body hi (for_loop lo hi body s) := by
  unfold for_loop
  have e : hi + 1 - lo = (hi - lo) + 1 := by omega
  rw [e, List.range'_concat, List.foldl_append]
  simp
  congr 1
  omega

/-- A loop that assigns `a[i] = f i` for `i < n` fills the first `n` cells and keeps the rest. -/
theorem fill_loop {α : Type} (d : α) (f : Nat → α) (n : Nat) (a : List α) (hn : n ≤ a.length) :
    (for_loop 0 n (fun i a => a.set i (f i)) a).length = a.length ∧
    ∀ j, (for_loop 0 n (fun i a => a.set i (f i)) a).getD j d =
      if j < n then f j else a.getD j d := by
  induction n with
  | zero => simp [for_loop_self]
  | succ n ih =>
    have ih := ih (by omega)
    rw [for_loop_succ _ _ _ _ (Nat.zero_le _)]
    refine ⟨by simp [ih.1], fun j => ?_⟩
    by_cases hj : n = j
    · subst hj
      rw [getD_set_eq _ _ _ _ (by rw [ih.1]; omega)]
      simp
    · rw [getD_set_ne _ _ _ _ _ hj, ih.2]
      have : (j < n + 1) = (j < n) := by
        apply propext; omega
      simp only [this]

/-- A loop that assigns `a[b+j] = f j` and `a[b+j+k] = g j` for `j < k`. -/
theorem pair_loop {α : Type} (d : α) (f g : Nat → α) (b k : Nat) (a : List α)
    (hn : b + 2 * k ≤ a.length) :
    (for_loop 0 k (fun j a => (a.set (b + j) (f j)).set (b + j + k) (g j)) a).length
      = a.length ∧
    ∀ x, (for_loop 0 k (fun j a => (a.set (b + j) (f j)).set (b + j + k) (g j)) a).getD x d =
      if b ≤ x ∧ x < b + k then f (x - b)
      else if b + k ≤ x ∧ x < b + 2 * k then g (x - b - k) else a.getD x d := by
  suffices H : ∀ c, c ≤ k →
      (for_loop 0 c (fun j a => (a.set (b + j) (f j)).set (b + j + k) (g j)) a).length
        = a.length ∧
      ∀ x, (for_loop 0 c (fun j a => (a.set (b + j) (f j)).set (b + j + k) (g j)) a).getD x d =
        if b ≤ x ∧ x < b + c then f (x - b)
        else if b + k ≤ x ∧ x < b + k + c then g (x - b - k) else a.getD x d by
    have := H k le_rfl
    refine ⟨this.1, fun x => ?_⟩
    rw [this.2, two_mul, ← Nat.add_assoc]
  intro c
  induction c with
  | zero =>
    intro _
    refine ⟨by rw [for_loop_self], fun x => ?_⟩
    rw [for_loop_self, if_neg (by omega), if_neg (by omega)]
  | succ c ih =>
    intro hc
    have ih := ih (by omega)
    rw [for_loop_succ _ _ _ _ (Nat.zero_le _)]
    refine ⟨by simp [ih.1], fun x => ?_⟩
    by_cases h1 : b + c + k = x
    · subst h1
      rw [getD_set_eq _ _ _ _ (by rw [List.length_set, ih.1]; omega)]
      rw [if_neg (by omega), if_pos (by omega)]
      congr 1; omega
    · rw [getD_set_ne _ _ _ _ _ h1]
      by_cases h2 : b + c = x
      · subst h2
        rw [getD_set_eq _ _ _ _ (by rw [ih.1]; omega)]
        rw [if_pos (by omega)]
        congr 1; omega
      · rw [getD_set_ne _ _ _ _ _ h2, ih.2]
        split_ifs <;> first | rfl | (exfalso; omega)

/-! ## The length loop -/

theorem wrap32_of_range (x : Int) (h0 : 0 ≤ x) (h1 : x ≤ INT_MAX) : wrap32 x = x := by
  unfold wrap32
  unfold INT_MAX at h1
  omega

theorem two_pow_le_int (a b : Nat) (h : a ≤ b) : (2 : Int) ^ a ≤ 2 ^ b :=
  pow_le_pow_right₀ (by norm_num) h

theorem two_pow_lt_int (a b : Nat) (h : a < b) : (2 : Int) ^ a < 2 ^ b :=
  pow_lt_pow_right₀ (by norm_num) h

/-- On a power of two that fits an `int` the loop stops with `N = length` and `Q = log2 N`. -/
theorem length_loop_pow (Q : Nat) (hQ : Q ≤ 30) :
    ∀ (fuel a : Nat), a ≤ Q → Q - a < fuel →
      length_loop ((2 : Int) ^ Q) fuel ((2 : Int) ^ a) (a : Int) = some ((2 : Int) ^ Q, (Q : Int)) := by
  intro fuel
  induction fuel with
  | zero => intro a _ h; omega
  | succ fuel ih =>
    intro a ha hf
    rw [length_loop]
    by_cases hlt : a < Q
    · rw [if_pos (two_pow_lt_int a Q hlt)]
      have h30 : (2 : Int) ^ (a + 1) ≤ 2 ^ 30 := two_pow_le_int (a + 1) 30 (by omega)
      have hpos : (0 : Int) ≤ 2 ^ (a + 1) := by positivity
      have e1 : wrap32 ((2 : Int) ^ a * 2) = 2 ^ (a + 1) := by
        rw [← pow_succ]
        exact wrap32_of_range _ hpos (by unfold INT_MAX; omega)
      have e2 : wrap32 ((a : Int) + 1) = ((a + 1 : Nat) : Int) := by
        rw [wrap32_of_range _ (by omega) (by unfold INT_MAX; omega)]
        push_cast; rfl
      rw [e1, e2]
      exact ih (a + 1) (by omega) (by omega)
    · have : a = Q := by omega
      subst this
      rw [if_neg (lt_irrefl _)]

theorem length_loop_valid (Q : Nat) (hQ : Q ≤ 30) (fuel : Nat) (hf : Q < fuel) :
    length_loop ((2 : Int) ^ Q) fuel 1 0 = some ((2 : Int) ^ Q, (Q : Int)) := by
  have := length_loop_pow Q hQ fuel 0 (Nat.zero_le _) (by omega)
  simpa using this

/-! ## Twiddle tables -/

section
variable {R : Type} [CommRing R]

theorem one_eq_mk : (⟨1, 0⟩ : Complex R) = 1 := rfl

/-- The table loop leaves `WNk[k] = WN^k` in every cell. -/
theorem twiddle_loop (WN : Complex R) (h : Nat) (hh : 1 ≤ h) :
    (for_loop 1 h (fun k WNk => WNk.set k (WN * WNk.getD (k - 1) 0))
        ((List.replicate h (0 : Complex R)).set 0 ⟨1, 0⟩)).length = h ∧
    ∀ k, k < h →
      (for_loop 1 h (fun k WNk => WNk.set k (WN * WNk.getD (k - 1) 0))
        ((List.replicate h (0 : Complex R)).set 0 ⟨1, 0⟩)).getD k 0 = WN ^ k := by
  suffices H : ∀ c, c + 1 ≤ h →
      (for_loop 1 (c + 1) (fun k WNk => WNk.set k (WN * WNk.getD (k - 1) 0))
          ((List.replicate h (0 : Complex R)).set 0 ⟨1, 0⟩)).length = h ∧
      ∀ k, k < c + 1 →
        (for_loop 1 (c + 1) (fun k WNk => WNk.set k (WN * WNk.getD (k - 1) 0))
          ((List.replicate h (0 : Complex R)).set 0 ⟨1, 0⟩)).getD k 0 = WN ^ k by
    obtain ⟨c, rfl⟩ : ∃ c, h = c + 1 := ⟨h - 1, by omega⟩
    exact H c le_rfl
  intro c
  induction c with
  | zero =>
    intro _
    rw [for_loop_self]
    refine ⟨by simp, fun k hk => ?_⟩
    have : k = 0 := by omega
    subst this
    rw [getD_set_eq _ _ _ _ (by simp; omega), one_eq_mk, pow_zero]
  | succ c ih =>
    intro hc
    have ih := ih (by omega)
    rw [for_loop_succ _ _ _ _ (by omega)]
    refine ⟨by rw [List.length_set]; exact ih.1, fun k hk => ?_⟩
    by_cases hk1 : c + 1 = k
    · subst hk1
      rw [getD_set_eq _ _ _ _ (by rw [ih.1]; omega), Nat.add_sub_cancel, ih.2 c (by omega),
        pow_succ, mul_comm]
    · rw [getD_set_ne _ _ _ _ _ hk1]
      exact ih.2 k (by omega)

end

/-! ## The recursive transform follows the decimation-in-time recursion -/

section
variable {R : Type} [CommRing R]

theorem dit_congr {K : Type} [CommRing K] (w : Nat → K) (q : Nat) :
    ∀ (u v : Nat → K) (t : Nat), (∀ i, i < 2 ^ q → u i = v i) → dit w q u t = dit w q v t := by
  induction q with
  | zero => intro u v t h; simpa [dit] using h 0 (by simp)
  | succ q ih =>
    intro u v t h
    have he : ∀ i, i < 2 ^ q → (fun i => u (i * 2)) i = (fun i => v (i * 2)) i := by
      intro i hi; exact h _ (by rw [pow_succ]; omega)
    have ho : ∀ i, i < 2 ^ q → (fun i => u (i * 2 + 1)) i = (fun i => v (i * 2 + 1)) i := by
      intro i hi; exact h _ (by rw [pow_succ]; omega)
    simp only [dit]
    rw [ih _ _ t he, ih _ _ t ho, ih _ _ (t - 2 ^ q) he, ih _ _ (t - 2 ^ q) ho]

theorem pair_fill_loop {α : Type} (f g : Nat → α) (n : Nat) (a b : List α) :
    for_loop 0 n (fun i (s : List α × List α) => (s.1.set i (f i), s.2.set i (g i))) (a, b) =
      (for_loop 0 n (fun i a => a.set i (f i)) a, for_loop 0 n (fun i b => b.set i (g i)) b) := by
  induction n with
  | zero => simp [for_loop_self]
  | succ n ih => simp only [for_loop_succ _ _ _ _ (Nat.zero_le _), ih]

theorem int_pow_succ_div (Q : Nat) : (2 : Int) ^ (Q + 1) / 2 = 2 ^ Q := by
  rw [pow_succ]; exact Int.mul_ediv_cancel _ (by norm_num)

theorem int_pow_toNat (Q : Nat) : ((2 : Int) ^ Q).toNat = 2 ^ Q := by
  have : ((2 : Int) ^ Q) = ((2 ^ Q : Nat) : Int) := by push_cast; rfl
  rw [this, Int.toNat_natCast]

/-- For `length = 2^Q` (`1 ≤ Q ≤ 30`) and fuel above `Q`, `fft_recursive` returns; the first
`2^Q` cells of the output hold the decimation-in-time recursion of the input with the base
`W (2^l)` at the level of length `2^l`, the other cells are kept. -/
theorem fft_recursive_dit (W : Int → Complex R) (Q : Nat) (hQ1 : 1 ≤ Q) (hQ : Q ≤ 30) :
    ∀ (fuel : Nat) (inp out : List (Complex R)), Q < fuel → 2 ^ Q ≤ out.length →
      ∃ res, fft_recursive W fuel inp out ((2 : Int) ^ Q) = Outcome.returned res ∧
        res.length = out.length ∧
        ∀ t, res.getD t 0 =
          if t < 2 ^ Q then dit (fun l => W ((2 : Int) ^ l)) Q (fun i => inp.getD i 0) t
          else out.getD t 0 := by
  induction Q, hQ1 using Nat.le_induction with
  | base =>
    intro fuel inp out hf ho
    obtain ⟨fuel, rfl⟩ : ∃ f, fuel = f + 1 := ⟨fuel - 1, by omega⟩
    simp only [pow_one] at ho
    refine ⟨(out.set 0 (inp.getD 0 0 + inp.getD 1 0)).set 1 (inp.getD 0 0 - inp.getD 1 0),
      ?_, by simp, fun t => ?_⟩
    · rw [fft_recursive, if_pos (by norm_num)]
    · rcases t with _ | _ | t
      · rw [getD_set_ne _ _ _ _ _ (by omega), getD_set_eq _ _ _ _ (by omega)]
        simp [dit]
      · rw [getD_set_eq _ _ _ _ (by rw [List.length_set]; omega)]
        simp [dit]
      · rw [getD_set_ne _ _ _ _ _ (by omega), getD_set_ne _ _ _ _ _ (by omega),
          if_neg (by omega)]
  | succ Q hQ1 ih =>
    intro fuel inp out hf ho
    obtain ⟨fuel, rfl⟩ : ∃ f, fuel = f + 1 := ⟨fuel - 1, by omega⟩
    have hlt : (2 : Int) ^ 1 < 2 ^ (Q + 1) := two_pow_lt_int 1 (Q + 1) (by omega)
    have hne : ¬ ((2 : Int) ^ (Q + 1) = 2) := by omega
    have hgt : ¬ ¬ ((2 : Int) ^ (Q + 1) > 2) := by omega
    have hloop := length_loop_valid (Q + 1) hQ (fuel + 1) hf
    obtain ⟨G, hG, hGl, hGv⟩ := ih (by omega) fuel
      (for_loop 0 (2 ^ Q) (fun i a => a.set i (inp.getD (i * 2) 0))
        (List.replicate (2 ^ Q) (0 : Complex R)))
      (List.replicate (2 ^ Q) (0 : Complex R)) (by omega) (by simp)
    obtain ⟨H, hH, hHl, hHv⟩ := ih (by omega) fuel
      (for_loop 0 (2 ^ Q) (fun i a => a.set i (inp.getD (i * 2 + 1) 0))
        (List.replicate (2 ^ Q) (0 : Complex R)))
      (List.replicate (2 ^ Q) (0 : Complex R)) (by omega) (by simp)
    have hXL := fill_loop (0 : Complex R) (fun i => inp.getD (i * 2) 0) (2 ^ Q)
      (List.replicate (2 ^ Q) (0 : Complex R)) (by simp)
    have hXH := fill_loop (0 : Complex R) (fun i => inp.getD (i * 2 + 1) 0) (2 ^ Q)
      (List.replicate (2 ^ Q) (0 : Complex R)) (by simp)
    have hT := twiddle_loop (W ((2 : Int) ^ (Q + 1))) (2 ^ Q) Nat.one_le_two_pow
    have hGv2 : ∀ t, t < 2 ^ Q → G.getD t 0 =
        dit (fun l => W ((2 : Int) ^ l)) Q (fun i => inp.getD (i * 2) 0) t := by
      intro t ht
      rw [hGv t, if_pos ht]
      apply dit_congr
      intro i hi
      rw [hXL.2 i, if_pos hi]
    have hHv2 : ∀ t, t < 2 ^ Q → H.getD t 0 =
        dit (fun l => W ((2 : Int) ^ l)) Q (fun i => inp.getD (i * 2 + 1) 0) t := by
      intro t ht
      rw [hHv t, if_pos ht]
      apply dit_congr
      intro i hi
      rw [hXH.2 i, if_pos hi]
    have hbody : (fun i (out : List (Complex R)) =>
          let temp := (WNk_recursive (W ((2 : Int) ^ (Q + 1))) ((2 : Int) ^ (Q + 1))).getD i 0
            * H.getD i 0
          let out := out.set i (G.getD i 0 + temp)
          out.set (2 ^ Q + i) (G.getD i 0 - temp)) =
        (fun j (a : List (Complex R)) =>
          (a.set (0 + j) ((fun i => G.getD i 0 +
              (WNk_recursive (W ((2 : Int) ^ (Q + 1))) ((2 : Int) ^ (Q + 1))).getD i 0
                * H.getD i 0) j)).set (0 + j + 2 ^ Q)
            ((fun i => G.getD i 0 -
              (WNk_recursive (W ((2 : Int) ^ (Q + 1))) ((2 : Int) ^ (Q + 1))).getD i 0
                * H.getD i 0) j)) := by
      funext i o
      simp only [Nat.zero_add]
      rw [Nat.add_comm (2 ^ Q) i]
    have hP := pair_loop (0 : Complex R)
      (fun i => G.getD i 0 +
        (WNk_recursive (W ((2 : Int) ^ (Q + 1))) ((2 : Int) ^ (Q + 1))).getD i 0 * H.getD i 0)
      (fun i => G.getD i 0 -
        (WNk_recursive (W ((2 : Int) ^ (Q + 1))) ((2 : Int) ^ (Q + 1))).getD i 0 * H.getD i 0)
      0 (2 ^ Q) out (by rw [pow_succ] at ho; omega)
    refine ⟨_, ?_, hP.1, fun t => ?_⟩
    · rw [fft_recursive, if_neg hne, if_neg hgt, hloop]
      simp only [not_true_eq_false, if_false, int_pow_succ_div, int_pow_toNat, pair_fill_loop,
        hG, hH]
      rw [hbody]
    · rw [hP.2 t]
      have hW : ∀ i, i < 2 ^ Q →
          (WNk_recursive (W ((2 : Int) ^ (Q + 1))) ((2 : Int) ^ (Q + 1))).getD i 0
            = W ((2 : Int) ^ (Q + 1)) ^ i := by
        intro i hi
        unfold WNk_recursive
        simp only [int_pow_succ_div, int_pow_toNat]
        exact hT.2 i hi
      have h2 : 2 ^ (Q + 1) = 2 ^ Q + 2 ^ Q := by rw [pow_succ]; omega
      by_cases h1 : t < 2 ^ Q
      · rw [if_pos ⟨Nat.zero_le _, by omega⟩, if_pos (by omega)]
        simp only [dit, if_pos h1, Nat.sub_zero]
        rw [hGv2 t h1, hHv2 t h1, hW t h1]
      · rw [if_neg (by omega)]
        by_cases h3 : t < 2 ^ (Q + 1)
        · rw [if_pos ⟨by omega, by omega⟩, if_pos h3]
          simp only [dit, if_neg h1, Nat.sub_zero]
          rw [hGv2 _ (by omega), hHv2 _ (by omega), hW _ (by omega)]
        · rw [if_neg (by omega), if_neg h3]

end

/-! ## The decimation-in-time recursion computes the DFT -/

theorem sum_range_even_odd {K : Type} [CommRing K] (f : Nat → K) (h : Nat) :
    ∑ n in Finset.range (h + h), f n =
      ∑ i in Finset.range h, f (i * 2) + ∑ i in Finset.range h, f (i * 2 + 1) := by
  induction h with
  | zero => simp
  | succ h ih =>
    have e : h + 1 + (h + 1) = (h + h) + 1 + 1 := by omega
    rw [e, Finset.sum_range_succ, Finset.sum_range_succ, ih, Finset.sum_range_succ,
      Finset.sum_range_succ]
    have e1 : h + h = h * 2 := by omega
    rw [e1]
    ring

/-- With `x^(2^q) = -1`, entry `t` and entry `t + 2^q` of the `2^(q+1)`-point DFT with base `x`
are the butterfly of the `2^q`-point DFTs (base `x^2`) of the even and the odd samples. -/
theorem dft_butterfly {K : Type} [CommRing K] (x : K) (h : Nat) (hx : x ^ h = -1)
    (u : Nat → K) (t : Nat) :
    (∑ n in Finset.range (h + h), u n * x ^ (n * t) =
      ∑ i in Finset.range h, u (i * 2) * (x ^ 2) ^ (i * t)
        + x ^ t * ∑ i in Finset.range h, u (i * 2 + 1) * (x ^ 2) ^ (i * t)) ∧
    (∑ n in Finset.range (h + h), u n * x ^ (n * (t + h)) =
      ∑ i in Finset.range h, u (i * 2) * (x ^ 2) ^ (i * t)
        - x ^ t * ∑ i in Finset.range h, u (i * 2 + 1) * (x ^ 2) ^ (i * t)) := by
  constructor
  · rw [sum_range_even_odd, Finset.mul_sum]
    congr 1
    · apply Finset.sum_congr rfl
      intro i _
      rw [← pow_mul]; congr 2; ring
    · apply Finset.sum_congr rfl
      intro i _
      rw [← pow_mul, mul_left_comm, ← pow_add]; congr 2; ring
  · rw [sum_range_even_odd, Finset.mul_sum, sub_eq_add_neg, ← Finset.sum_neg_distrib]
    congr 1
    · apply Finset.sum_congr rfl
      intro i _
      have e : i * 2 * (t + h) = 2 * (i * t) + h * (2 * i) := by ring
      rw [e, pow_add, pow_mul x h, hx, pow_mul (-1 : K) 2 i, neg_one_sq, one_pow, mul_one,
        pow_mul]
    · apply Finset.sum_congr rfl
      intro i _
      have e : (i * 2 + 1) * (t + h) = t + 2 * (i * t) + h * (2 * i + 1) := by ring
      rw [e, pow_add, pow_add, pow_mul x h, hx, pow_succ, pow_mul (-1 : K) 2 i, neg_one_sq,
        one_pow, pow_mul]
      ring

/-- When the base of each level is a square root of the base below it and
`w q ^ (2^(q-1)) = -1`, the decimation-in-time recursion is the DFT. -/
theorem dit_eq_dft {K : Type} [CommRing K] (w : Nat → K) (Q : Nat)
    (hneg : ∀ q, 1 ≤ q → q ≤ Q → w q ^ 2 ^ (q - 1) = -1)
    (hsq : ∀ q, 1 ≤ q → q < Q → w q = w (q + 1) ^ 2) :
    ∀ q, q ≤ Q → ∀ x, (1 ≤ q → x = w q) → ∀ (u : Nat → K) (t : Nat), t < 2 ^ q →
      dit w q u t = ∑ n in Finset.range (2 ^ q), u n * x ^ (n * t) := by
  intro q
  induction q with
  | zero =>
    intro _ x _ u t ht
    simp [dit]
  | succ q ih =>
    intro hq x hx u t ht
    have hx := hx (by omega)
    have hxh : x ^ 2 ^ q = -1 := by
      have := hneg (q + 1) (by omega) hq
      rwa [Nat.add_sub_cancel, ← hx] at this
    have ih := ih (by omega) (x ^ 2) (fun h1 => by rw [hx]; exact (hsq q h1 (by omega)).symm)
    have e2 : 2 ^ (q + 1) = 2 ^ q + 2 ^ q := by rw [pow_succ]; omega
    have hB := dft_butterfly x (2 ^ q) hxh u
    simp only [dit]
    by_cases h1 : t < 2 ^ q
    · rw [if_pos h1, ih _ t h1, ih _ t h1, e2, (hB t).1, hx]
    · rw [if_neg h1, ih _ _ (by omega), ih _ _ (by omega), e2]
      have := (hB (t - 2 ^ q)).2
      rw [Nat.sub_add_cancel (by omega)] at this
      rw [this, hx]

/-! ## Bit reversal -/

theorem for_loop_const_succ {σ : Type} (g : σ → σ) (n : Nat) (s : σ) :
    for_loop 0 (n + 1) (fun _ => g) s = for_loop 0 n (fun _ => g) (g s) := by
  induction n with
  | zero => rw [for_loop_succ _ _ _ _ (Nat.zero_le _), for_loop_self, for_loop_self]
  | succ n ih =>
    rw [for_loop_succ _ _ _ _ (Nat.zero_le _), ih]
    exact (for_loop_succ 0 n (fun _ => g) (g s) (Nat.zero_le _)).symm

theorem brev_lt (w x : Nat) : brev w x < 2 ^ w := by
  induction w generalizing x with
  | zero => simp [brev]
  | succ w ih =>
    have h1 := ih (x / 2)
    have h2 : x % 2 < 2 := Nat.mod_lt _ (by omega)
    have h3 : (x % 2) * 2 ^ w ≤ 1 * 2 ^ w := Nat.mul_le_mul_right _ (by omega)
    rw [brev, pow_succ]
    omega

theorem brev_even (w b : Nat) : brev (w + 1) (2 * b) = brev w b := by
  rw [brev, Nat.mul_mod_right, Nat.zero_mul, Nat.zero_add,
    Nat.mul_div_cancel_left _ (by omega : 0 < 2)]

theorem brev_odd (w b : Nat) : brev (w + 1) (2 * b + 1) = brev w b + 2 ^ w := by
  have h1 : (2 * b + 1) % 2 = 1 := by omega
  have h2 : (2 * b + 1) / 2 = b := by omega
  rw [brev, h1, h2, Nat.one_mul, Nat.add_comm]

/-- One pass of the loop body of `bit_reverse` in arithmetic form. -/
theorem bit_reverse_step (r x : Nat) :
    ((r <<< 1) % 4294967296 ||| (x &&& 1), x >>> 1) = ((2 * r) % 4294967296 + x % 2, x / 2) := by
  have h1 : r <<< 1 = 2 * r := by rw [Nat.shiftLeft_eq]; omega
  have h2 : x >>> 1 = x / 2 := by rw [Nat.shiftRight_eq_div_pow]
  have h3 : (2 * r) % 4294967296 = 2 ^ 1 * (r % 2147483648) := by omega
  have h4 : x % 2 < 2 ^ 1 := by omega
  rw [h1, h2, Nat.and_one_is_mod, h3, ← Nat.mul_add_lt_is_or h4]

/-- The loop of `bit_reverse`, started with `result = r`, ends with `r * 2^w + brev w x`
reduced to 32 bits. -/
theorem bit_reverse_loop (w : Nat) : ∀ (r x : Nat), r < 4294967296 →
    (for_loop 0 w (fun _ (s : Nat × Nat) => ((2 * s.1) % 4294967296 + s.2 % 2, s.2 / 2))
      (r, x)).1 = (r * 2 ^ w + brev w x) % 4294967296 := by
  induction w with
  | zero =>
    intro r x hr
    rw [for_loop_self]
    simp only [brev, pow_zero, Nat.mul_one, Nat.add_zero]
    exact (Nat.mod_eq_of_lt hr).symm
  | succ w ih =>
    intro r x hr
    rw [for_loop_const_succ, ih _ _ (by omega), brev]
    have key : r * 2 ^ (w + 1) + (x % 2 * 2 ^ w + brev w (x / 2))
        = ((2 * r % 4294967296 + x % 2) * 2 ^ w + brev w (x / 2))
          + 4294967296 * ((2 * r / 4294967296) * 2 ^ w) := by
      have h := Nat.div_add_mod (2 * r) 4294967296
      calc r * 2 ^ (w + 1) + (x % 2 * 2 ^ w + brev w (x / 2))
          = (2 * r) * 2 ^ w + (x % 2 * 2 ^ w + brev w (x / 2)) := by rw [pow_succ]; ring
        _ = (4294967296 * (2 * r / 4294967296) + 2 * r % 4294967296) * 2 ^ w
              + (x % 2 * 2 ^ w + brev w (x / 2)) := by rw [h]
        _ = _ := by ring
    rw [key, Nat.add_mul_mod_self_left]

theorem bit_reverse_eq (x : Nat) (w : Int) :
    bit_reverse x w = brev w.toNat x % 4294967296 := by
  unfold bit_reverse
  have hb : (fun (_ : Nat) (s : Nat × Nat) =>
      let result := (s.1 <<< 1) % 4294967296
      let result := result ||| (s.2 &&& 1)
      let index := s.2 >>> 1
      (result, index)) = (fun _ s => ((2 * s.1) % 4294967296 + s.2 % 2, s.2 / 2)) := by
    funext _ s
    exact bit_reverse_step s.1 s.2
  rw [hb, bit_reverse_loop _ _ _ (by omega), Nat.zero_mul, Nat.zero_add]

theorem bit_reverse_eq_brev (x : Nat) (w : Nat) (hw : w ≤ 32) :
    bit_reverse x (w : Int) = brev w x := by
  rw [bit_reverse_eq, Int.toNat_natCast]
  apply Nat.mod_eq_of_lt
  calc brev w x < 2 ^ w := brev_lt w x
    _ ≤ 2 ^ 32 := Nat.pow_le_pow_right (by omega) hw

theorem testBit_brev (w : Nat) : ∀ (x i : Nat),
    (brev w x).testBit i = if i < w then x.testBit (w - 1 - i) else false := by
  induction w with
  | zero => intro x i; simp [brev]
  | succ w ih =>
    intro x i
    have h2 : x % 2 < 2 := Nat.mod_lt _ (by omega)
    rw [brev, Nat.mul_comm, Nat.testBit_mul_pow_two_add _ (brev_lt w (x / 2)), ih]
    by_cases h1 : i < w
    · rw [if_pos h1, if_pos h1, if_pos (by omega)]
      have e : w + 1 - 1 - i = (w - 1 - i) + 1 := by omega
      rw [e, Nat.testBit_succ]
    · rw [if_neg h1]
      by_cases h3 : i = w
      · subst h3
        rw [if_pos (by omega), Nat.sub_self]
        have e : i + 1 - 1 - i = 0 := by omega
        rw [e, Nat.testBit_zero, Nat.testBit_zero, Nat.mod_mod]
      · rw [if_neg (by omega)]
        apply Nat.testBit_lt_two_pow
        calc x % 2 < 2 ^ 1 := h2
          _ ≤ 2 ^ (i - w) := Nat.pow_le_pow_right (by omega) (by omega)

theorem brev_brev (w x : Nat) (hx : x < 2 ^ w) : brev w (brev w x) = x := by
  apply Nat.eq_of_testBit_eq
  intro i
  rw [testBit_brev]
  by_cases h1 : i < w
  · rw [if_pos h1, testBit_brev, if_pos (by omega)]
    congr 1; omega
  · rw [if_neg h1]
    symm
    apply Nat.testBit_lt_two_pow
    calc x < 2 ^ w := hx
      _ ≤ 2 ^ i := Nat.pow_le_pow_right (by omega) (by omega)

theorem brev_zero (w : Nat) : brev w 0 = 0 := by
  induction w with
  | zero => rfl
  | succ w ih => simp [brev, ih]

theorem getD_ofFn {α : Type} (d : α) (n : Nat) (f : Fin n → α) (i : Nat) (h : i < n) :
    (List.ofFn f).getD i d = f ⟨i, h⟩ := by
  rw [List.getD_eq_getElem _ _ (by simpa using h)]
  simp

/-! ## The butterfly stages of the iterative transform -/

section
variable {R : Type} [CommRing R]

/-- One pass over all groups of a stage: every pair `(c*p + j, c*p + j + k)` of `Y` receives the
butterfly of the same pair of `X`. -/
theorem butterfly_pass (WNk X : List (Complex R)) (N p k m B : Nat) (hp : p = 2 * k)
    (hk : 0 < k) (hN : N = B * p) :
    ∀ (d c fuel : Nat) (Y : List (Complex R)), c + d = B → d < fuel → Y.length = N →
      ∃ Y', for_step_loop N p (fun i Y =>
          for_loop 0 k (fun j Y =>
            let n := i + j
            let XWNk := X.getD (n + k) 0 * WNk.getD (j * m) 0
            let Y := Y.set n (X.getD n 0 + XWNk)
            Y.set (n + k) (X.getD n 0 - XWNk)) Y) fuel (c * p) Y = some Y' ∧
        Y'.length = N ∧
        (∀ x, x < c * p → Y'.getD x 0 = Y.getD x 0) ∧
        ∀ c' j, c ≤ c' → c' < B → j < k →
          Y'.getD (c' * p + j) 0
            = X.getD (c' * p + j) 0 + X.getD (c' * p + j + k) 0 * WNk.getD (j * m) 0 ∧
          Y'.getD (c' * p + j + k) 0
            = X.getD (c' * p + j) 0 - X.getD (c' * p + j + k) 0 * WNk.getD (j * m) 0 := by
  intro d
  induction d with
  | zero =>
    intro c fuel Y hc hf hY
    obtain ⟨fuel, rfl⟩ : ∃ f, fuel = f + 1 := ⟨fuel - 1, by omega⟩
    have hcB : c = B := by omega
    subst hcB
    refine ⟨Y, ?_, hY, fun _ _ => rfl, fun c' j h1 h2 _ => by omega⟩
    rw [for_step_loop, if_neg (by omega)]
  | succ d ih =>
    intro c fuel Y hc hf hY
    obtain ⟨fuel, rfl⟩ : ∃ f, fuel = f + 1 := ⟨fuel - 1, by omega⟩
    have hcp : c * p + p ≤ N := by
      have : (c + 1) * p ≤ B * p := Nat.mul_le_mul_right p (by omega)
      rw [hN]; rw [Nat.add_mul, Nat.one_mul] at this; exact this
    have hP := pair_loop (0 : Complex R)
      (fun j => X.getD (c * p + j) 0 + X.getD (c * p + j + k) 0 * WNk.getD (j * m) 0)
      (fun j => X.getD (c * p + j) 0 - X.getD (c * p + j + k) 0 * WNk.getD (j * m) 0)
      (c * p) k Y (by omega)
    obtain ⟨Y', hrun, hlen, hlow, hblk⟩ := ih (c + 1) fuel _ (by omega) (by omega)
      (hP.1.trans hY)
    refine ⟨Y', ?_, hlen, fun x hx => ?_, fun c' j h1 h2 hj => ?_⟩
    · rw [for_step_loop, if_pos (by omega)]
      have e : c * p + p = (c + 1) * p := by rw [Nat.add_mul, Nat.one_mul]
      rw [e]
      exact hrun
    · rw [hlow x (by rw [Nat.add_mul]; omega), hP.2 x, if_neg (by omega), if_neg (by omega)]
    · by_cases hcc : c' = c
      · subst hcc
        have e1 : c' * p + j < (c' + 1) * p := by rw [Nat.add_mul]; omega
        have e2 : c' * p + j + k < (c' + 1) * p := by rw [Nat.add_mul]; omega
        rw [hlow _ e1, hlow _ e2, hP.2, hP.2, if_pos (by omega), if_neg (by omega),
          if_pos (by omega)]
        have e3 : c' * p + j - c' * p = j := by omega
        have e4 : c' * p + j + k - c' * p - k = j := by omega
        rw [e3, e4]
        exact ⟨rfl, rfl⟩
      · exact hblk c' j (by omega) h2 hj

end

section
variable {R : Type} [CommRing R]

/-- A butterfly pass turns the blocks of level `s` into the blocks of level `s + 1`. -/
theorem blocks_step (WN : Complex R) (inp WNk X Y : List (Complex R)) (Q s : Nat) (hs : s < Q)
    (hW : ∀ j, j < 2 ^ (Q - 1) → WNk.getD j 0 = WN ^ j)
    (hX : Blocks (fun l => WN ^ 2 ^ (Q - l)) inp Q s X)
    (hY : ∀ c j, c < 2 ^ (Q - (s + 1)) → j < 2 ^ s →
      Y.getD (c * 2 ^ (s + 1) + j) 0
        = X.getD (c * 2 ^ (s + 1) + j) 0
          + X.getD (c * 2 ^ (s + 1) + j + 2 ^ s) 0 * WNk.getD (j * 2 ^ (Q - 1 - s)) 0 ∧
      Y.getD (c * 2 ^ (s + 1) + j + 2 ^ s) 0
        = X.getD (c * 2 ^ (s + 1) + j) 0
          - X.getD (c * 2 ^ (s + 1) + j + 2 ^ s) 0 * WNk.getD (j * 2 ^ (Q - 1 - s)) 0) :
    Blocks (fun l => WN ^ 2 ^ (Q - l)) inp Q (s + 1) Y := by
  intro b t hb ht
  obtain ⟨w, hw⟩ : ∃ w, Q - (s + 1) = w := ⟨_, rfl⟩
  have hw1 : Q - s = w + 1 := by omega
  have hw2 : Q - 1 - s = w := by omega
  rw [hw] at hb ⊢
  rw [hw, hw2] at hY
  unfold Blocks at hX
  rw [hw1] at hX
  have hb2 : 2 * b + 1 < 2 ^ (w + 1) := by rw [pow_succ]; omega
  -- the two half blocks of `X`
  have hE : ∀ j, j < 2 ^ s → X.getD (b * 2 ^ (s + 1) + j) 0 =
      dit (fun l => WN ^ 2 ^ (Q - l)) s
        (fun i => (fun i => inp.getD (brev w b + i * 2 ^ w) 0) (i * 2)) j := by
    intro j hj
    have e : b * 2 ^ (s + 1) + j = (2 * b) * 2 ^ s + j := by rw [pow_succ]; ring
    rw [e, hX (2 * b) j (by omega) hj, brev_even]
    congr 1
    funext i
    congr 1
    rw [pow_succ]; ring
  have hO : ∀ j, j < 2 ^ s → X.getD (b * 2 ^ (s + 1) + j + 2 ^ s) 0 =
      dit (fun l => WN ^ 2 ^ (Q - l)) s
        (fun i => (fun i => inp.getD (brev w b + i * 2 ^ w) 0) (i * 2 + 1)) j := by
    intro j hj
    have e : b * 2 ^ (s + 1) + j + 2 ^ s = (2 * b + 1) * 2 ^ s + j := by rw [pow_succ]; ring
    rw [e, hX (2 * b + 1) j hb2 hj, brev_odd]
    congr 1
    funext i
    congr 1
    rw [pow_succ]; ring
  have hT : ∀ j, j < 2 ^ s → WNk.getD (j * 2 ^ w) 0 = (WN ^ 2 ^ (Q - (s + 1))) ^ j := by
    intro j hj
    have hlt : j * 2 ^ w < 2 ^ (Q - 1) := by
      have e : 2 ^ (Q - 1) = 2 ^ s * 2 ^ w := by rw [← pow_add]; congr 1; omega
      rw [e]
      exact Nat.mul_lt_mul_of_pos_right hj (by positivity)
    rw [hW _ hlt, hw, ← pow_mul, Nat.mul_comm]
  simp only [dit]
  by_cases h1 : t < 2 ^ s
  · rw [if_pos h1, (hY b t hb h1).1, hE t h1, hO t h1, hT t h1, mul_comm]
  · have h2 : t - 2 ^ s < 2 ^ s := by rw [pow_succ] at ht; omega
    have e : b * 2 ^ (s + 1) + t = b * 2 ^ (s + 1) + (t - 2 ^ s) + 2 ^ s := by omega
    rw [if_neg h1, e, (hY b (t - 2 ^ s) hb h2).2, hE _ h2, hO _ h2, hT _ h2, mul_comm]

end

section
variable {R : Type} [CommRing R]

/-- One stage of `fft_iterative` returns (given fuel `≥ N`) and advances the invariant. -/
theorem stage_body_inv (WN : Complex R) (inp out0 WNk : List (Complex R)) (Q q fuel : Nat)
    (hq : q < Q) (hf : 2 ^ Q ≤ fuel) (ho : 2 ^ Q ≤ out0.length)
    (hW : ∀ j, j < 2 ^ (Q - 1) → WNk.getD j 0 = WN ^ j)
    (st : Stage R) (hst : StageInv WN inp out0 Q q st) :
    ∃ st', stage_body WNk (2 ^ Q) Q fuel q st = some st' ∧
      StageInv WN inp out0 Q (q + 1) st' := by
  obtain ⟨hp, hk, hm, hXl, hYl, hlt, -⟩ := hst
  obtain ⟨hout, hX⟩ := hlt hq
  have hm' : st.m = 2 ^ (Q - 1 - q) := by
    rw [hm, Nat.pow_div (by omega) (by omega)]
  have hB : 2 ^ Q = 2 ^ (Q - (q + 1)) * (st.p * 2) := by
    rw [hp, ← pow_succ, ← pow_add]; congr 1; omega
  have hfuel : 2 ^ (Q - (q + 1)) < fuel := by
    have : 2 ^ (Q - (q + 1)) < 2 ^ Q := Nat.pow_lt_pow_right (by omega) (by omega)
    omega
  obtain ⟨Y', hrun, hlen, -, hblk⟩ := butterfly_pass WNk st.X (2 ^ Q) (st.p * 2) st.k st.m
    (2 ^ (Q - (q + 1))) (by rw [hp, hk]; omega) (by rw [hk]; positivity) hB
    (2 ^ (Q - (q + 1))) 0 fuel st.Y (by omega) hfuel hYl
  rw [Nat.zero_mul] at hrun
  have hY' : Blocks (fun l => WN ^ 2 ^ (Q - l)) inp Q (q + 1) Y' := by
    apply blocks_step WN inp WNk st.X Y' Q q hq hW hX
    intro c j hc hj
    have := hblk c j (Nat.zero_le _) hc (by rw [hk]; exact hj)
    rw [hp, hk, hm', ← pow_succ] at this
    exact this
  have hm2 : st.m / 2 = 2 ^ (Q - 1) / 2 ^ (q + 1) := by
    rw [hm, Nat.div_div_eq_div_mul, ← pow_succ]
  by_cases hlast : q < Q - 1
  · have hF := fill_loop (0 : Complex R) (fun i => Y'.getD i 0) (2 ^ Q) st.X (by omega)
    refine ⟨_, by simp only [stage_body, hrun, if_pos hlast]; rfl, ?_⟩
    refine ⟨by simp [hp, pow_succ], by simp [hk, pow_succ], hm2, by rw [hF.1, hXl], hlen,
      fun _ => ⟨hout, ?_⟩, fun h => by omega⟩
    intro b t hb ht
    have hbt : b * 2 ^ (q + 1) + t < 2 ^ Q := by
      have e : 2 ^ Q = 2 ^ (Q - (q + 1)) * 2 ^ (q + 1) := by rw [← pow_add]; congr 1; omega
      have : (b + 1) * 2 ^ (q + 1) ≤ 2 ^ (Q - (q + 1)) * 2 ^ (q + 1) :=
        Nat.mul_le_mul_right _ (by omega)
      rw [Nat.add_mul] at this
      omega
    show (for_loop 0 (2 ^ Q) (fun i X => X.set i (Y'.getD i 0)) st.X).getD _ 0 = _
    rw [hF.2, if_pos hbt]
    exact hY' b t hb ht
  · have hQ : q + 1 = Q := by omega
    have hF := fill_loop (0 : Complex R) (fun i => Y'.getD i 0) (2 ^ Q) st.out
      (by rw [hout]; exact ho)
    refine ⟨_, by simp only [stage_body, hrun, if_neg hlast]; rfl, ?_⟩
    refine ⟨by simp [hp, pow_succ], by simp [hk, pow_succ], hm2, hXl, hlen,
      fun h => by omega, fun _ => ⟨by rw [← hout]; exact hF.1, fun t => ?_⟩⟩
    show (for_loop 0 (2 ^ Q) (fun i out => out.set i (Y'.getD i 0)) st.out).getD _ 0 = _
    rw [hF.2, hout]
    by_cases ht : t < 2 ^ Q
    · rw [if_pos ht, if_pos ht]
      have := hY' 0 t (by positivity) (by rw [hQ]; exact ht)
      rw [hQ] at this
      simpa [brev] using this
    · rw [if_neg ht, if_neg ht]

end

section
variable {R : Type} [CommRing R]

theorem stage_loop_inv (WN : Complex R) (inp out0 WNk : List (Complex R)) (Q fuel : Nat)
    (hf : 2 ^ Q ≤ fuel) (ho : 2 ^ Q ≤ out0.length)
    (hW : ∀ j, j < 2 ^ (Q - 1) → WNk.getD j 0 = WN ^ j)
    (st0 : Stage R) (h0 : StageInv WN inp out0 Q 0 st0) :
    ∀ c, c ≤ Q →
      ∃ st, for_loop 0 c (fun q s => s.bind (stage_body WNk (2 ^ Q) Q fuel q)) (some st0)
          = some st ∧ StageInv WN inp out0 Q c st := by
  intro c
  induction c with
  | zero => intro _; exact ⟨st0, by rw [for_loop_self], h0⟩
  | succ c ih =>
    intro hc
    obtain ⟨st, hrun, hinv⟩ := ih (by omega)
    obtain ⟨st', hrun', hinv'⟩ :=
      stage_body_inv WN inp out0 WNk Q c fuel (by omega) hf ho hW st hinv
    refine ⟨st', ?_, hinv'⟩
    rw [for_loop_succ _ _ _ _ (Nat.zero_le _), hrun]
    exact hrun'

theorem bit_reversed_copy_spec (inp : List (Complex R)) (Q : Nat) (hQ : Q ≤ 32) :
    (bit_reversed_copy inp ((2 : Int) ^ Q) (Q : Int)).length = 2 ^ Q ∧
    ∀ i, i < 2 ^ Q →
      (bit_reversed_copy inp ((2 : Int) ^ Q) (Q : Int)).getD i 0 = inp.getD (brev Q i) 0 := by
  unfold bit_reversed_copy
  rw [int_pow_toNat]
  have hF := fill_loop (0 : Complex R) (fun i => inp.getD (bit_reverse i (Q : Int)) 0) (2 ^ Q)
    (List.replicate (2 ^ Q) 0) (by simp)
  refine ⟨by rw [hF.1]; simp, fun i hi => ?_⟩
  rw [hF.2, if_pos hi]
  show inp.getD (bit_reverse i (Q : Int)) 0 = _
  rw [bit_reverse_eq_brev _ _ hQ]

/-- For `length = 2^Q` (`1 ≤ Q ≤ 30`) and fuel `≥ 2^Q`, `fft_iterative` returns; the first
`2^Q` cells of the output hold the decimation-in-time recursion of the input with the base
`WN^(2^(Q-l))` at the level of length `2^l`, the other cells are kept. -/
theorem fft_iterative_dit (W : Int → Complex R) (Q : Nat) (hQ1 : 1 ≤ Q) (hQ : Q ≤ 30)
    (fuel : Nat) (inp out : List (Complex R)) (hf : 2 ^ Q ≤ fuel) (ho : 2 ^ Q ≤ out.length) :
    ∃ res, fft_iterative W fuel inp out ((2 : Int) ^ Q) = Outcome.returned res ∧
      res.length = out.length ∧
      ∀ t, res.getD t 0 =
        if t < 2 ^ Q then
          dit (fun l => W ((2 : Int) ^ Q) ^ 2 ^ (Q - l)) Q (fun i => inp.getD i 0) t
        else out.getD t 0 := by
  obtain ⟨P, rfl⟩ : ∃ P, Q = P + 1 := ⟨Q - 1, by omega⟩
  have hge : ¬ ¬ ((2 : Int) ^ (P + 1) ≥ 2) := by
    have := two_pow_le_int 1 (P + 1) (by omega)
    simp only [pow_one] at this
    omega
  have hloop := length_loop_valid (P + 1) hQ fuel
    (lt_of_lt_of_le (Nat.lt_two_pow (P + 1)) hf)
  have hT := twiddle_loop (W ((2 : Int) ^ (P + 1))) (2 ^ P) Nat.one_le_two_pow
  have hW : ∀ j, j < 2 ^ (P + 1 - 1) →
      (WNk_iterative (W ((2 : Int) ^ (P + 1))) ((2 : Int) ^ (P + 1))).getD j 0
        = W ((2 : Int) ^ (P + 1)) ^ j := by
    intro j hj
    unfold WNk_iterative
    simp only [int_pow_succ_div, int_pow_toNat]
    exact hT.2 j hj
  have hXs := bit_reversed_copy_spec inp (P + 1) (by omega)
  have h0 : StageInv (W ((2 : Int) ^ (P + 1))) inp out (P + 1) 0
      ⟨1, 1, 2 ^ P, bit_reversed_copy inp ((2 : Int) ^ (P + 1)) ((P + 1 : Nat) : Int),
        List.replicate (2 ^ (P + 1)) 0, out⟩ := by
    refine ⟨rfl, rfl, by simp, hXs.1, by simp, fun _ => ⟨rfl, ?_⟩, fun h => by omega⟩
    intro b t hb ht
    have ht0 : t = 0 := by simpa using ht
    subst ht0
    simp only [dit, pow_zero, Nat.mul_one, Nat.add_zero, Nat.sub_zero, Nat.zero_mul]
    exact hXs.2 b hb
  obtain ⟨st, hrun, hinv⟩ := stage_loop_inv (W ((2 : Int) ^ (P + 1))) inp out _ (P + 1) fuel
    hf ho hW _ h0 (P + 1) le_rfl
  obtain ⟨-, -, -, -, -, -, hfin⟩ := hinv
  obtain ⟨hlen, hval⟩ := hfin rfl
  refine ⟨st.out, ?_, hlen, hval⟩
  unfold fft_iterative
  rw [if_neg hge, hloop]
  simp only [not_true_eq_false, if_false, int_pow_succ_div, int_pow_toNat, Int.toNat_natCast]
  rw [hrun]

end

/-! ## Closed forms of the two transforms -/

theorem getD_range_map {α : Type} (d : α) (f : Nat → α) (n i : Nat) (h : i < n) :
    ((List.range n).map f).getD i d = f i := by
  rw [List.getD_eq_getElem _ _ (by simpa using h)]
  simp

theorem eq_dit_out {K : Type} [CommRing K] (w : Nat → K) (Q : Nat) (inp out res : List K)
    (hl : res.length = out.length)
    (hv : ∀ t, res.getD t 0 =
      if t < 2 ^ Q then dit w Q (fun i => inp.getD i 0) t else out.getD t 0) :
    res = dit_out w Q inp out := by
  apply list_ext_getD (0 : K)
  · simp [dit_out, hl]
  · intro i hi
    rw [hv i]
    unfold dit_out
    rw [getD_range_map _ _ _ _ (by omega)]

section
variable {R : Type} [CommRing R]

theorem fft_recursive_eq (W : Int → Complex R) (Q : Nat) (hQ1 : 1 ≤ Q) (hQ : Q ≤ 30)
    (fuel : Nat) (inp out : List (Complex R)) (hf : Q < fuel) (ho : 2 ^ Q ≤ out.length) :
    fft_recursive W fuel inp out ((2 : Int) ^ Q)
      = Outcome.returned (dit_out (fun l => W ((2 : Int) ^ l)) Q inp out) := by
  obtain ⟨res, hr, hl, hv⟩ := fft_recursive_dit W Q hQ1 hQ fuel inp out hf ho
  rw [hr, eq_dit_out _ Q inp out res hl hv]

theorem fft_iterative_eq (W : Int → Complex R) (Q : Nat) (hQ1 : 1 ≤ Q) (hQ : Q ≤ 30)
    (fuel : Nat) (inp out : List (Complex R)) (hf : 2 ^ Q ≤ fuel) (ho : 2 ^ Q ≤ out.length) :
    fft_iterative W fuel inp out ((2 : Int) ^ Q)
      = Outcome.returned
          (dit_out (fun l => W ((2 : Int) ^ Q) ^ 2 ^ (Q - l)) Q inp out) := by
  obtain ⟨res, hr, hl, hv⟩ := fft_iterative_dit W Q hQ1 hQ fuel inp out hf ho
  rw [hr, eq_dit_out _ Q inp out res hl hv]

end

theorem length_dit_out {K : Type} [CommRing K] (w : Nat → K) (Q : Nat) (inp out : List K) :
    (dit_out w Q inp out).length = out.length := by
  simp [dit_out]

theorem getD_dit_out {K : Type} [CommRing K] (w : Nat → K) (Q : Nat) (inp out : List K)
    (t : Nat) (ht : t < 2 ^ Q) (ho : 2 ^ Q ≤ out.length) :
    (dit_out w Q inp out).getD t 0 = dit w Q (fun i => inp.getD i 0) t := by
  unfold dit_out
  rw [getD_range_map _ _ _ _ (by omega), if_pos ht]

/-- Below `2^q` the recursion uses the base of a level only from level 2 on. -/
theorem dit_congr_base {K : Type} [CommRing K] (w v : Nat → K) (q : Nat) :
    (∀ l, 2 ≤ l → l ≤ q → w l = v l) →
      ∀ (u : Nat → K) (t : Nat), t < 2 ^ q → dit w q u t = dit v q u t := by
  induction q with
  | zero => intro _ u t _; rfl
  | succ q ih =>
    intro h u t ht
    have ih := ih (fun l h1 h2 => h l h1 (by omega))
    have hp : ∀ e, e < 2 ^ q → w (q + 1) ^ e = v (q + 1) ^ e := by
      intro e he
      by_cases hq : q = 0
      · subst hq
        have : e = 0 := by simpa using he
        rw [this, pow_zero, pow_zero]
      · rw [h (q + 1) (by omega) le_rfl]
    simp only [dit]
    by_cases h1 : t < 2 ^ q
    · rw [if_pos h1, if_pos h1, ih _ t h1, ih _ t h1, hp t h1]
    · have h2 : t - 2 ^ q < 2 ^ q := by rw [pow_succ] at ht; omega
      rw [if_neg h1, if_neg h1, ih _ _ h2, ih _ _ h2, hp _ h2]

theorem dit_out_congr_base {K : Type} [CommRing K] (w v : Nat → K) (Q : Nat)
    (h : ∀ l, 2 ≤ l → l ≤ Q → w l = v l) (inp out : List K) :
    dit_out w Q inp out = dit_out v Q inp out := by
  unfold dit_out
  apply List.map_congr_left
  intro t _
  by_cases ht : t < 2 ^ Q
  · rw [if_pos ht, if_pos ht, dit_congr_base w v Q h _ t ht]
  · rw [if_neg ht, if_neg ht]

theorem dit_linear {K : Type} [CommRing K] (w : Nat → K) (a b : K) (q : Nat) :
    ∀ (u v : Nat → K) (t : Nat),
      dit w q (fun i => a * u i + b * v i) t = a * dit w q u t + b * dit w q v t := by
  induction q with
  | zero => intro u v t; rfl
  | succ q ih =>
    intro u v t
    simp only [dit]
    rw [ih (fun i => u (i * 2)) (fun i => v (i * 2)),
      ih (fun i => u (i * 2 + 1)) (fun i => v (i * 2 + 1)),
      ih (fun i => u (i * 2)) (fun i => v (i * 2)),
      ih (fun i => u (i * 2 + 1)) (fun i => v (i * 2 + 1))]
    split_ifs <;> ring

theorem dit_zero {K : Type} [CommRing K] (w : Nat → K) (q : Nat) :
    ∀ (t : Nat), dit w q (fun _ => 0) t = 0 := by
  induction q with
  | zero => intro t; rfl
  | succ q ih => intro t; simp [dit, ih]

theorem dit_impulse {K : Type} [CommRing K] (w : Nat → K) (q : Nat) :
    ∀ (t : Nat), dit w q (fun i => if i = 0 then 1 else 0) t = 1 := by
  induction q with
  | zero => intro t; simp [dit]
  | succ q ih =>
    intro t
    have he : (fun i : Nat => (if i * 2 = 0 then (1 : K) else 0))
        = (fun i => if i = 0 then 1 else 0) := by
      funext i; simp
    have ho : (fun i : Nat => (if i * 2 + 1 = 0 then (1 : K) else 0)) = (fun _ => 0) := by
      funext i; simp
    simp only [dit, he, ho, ih, dit_zero]
    split_ifs <;> simp

/-- With `x^(2^(Q-1)) = -1` the recursion with the bases `x^(2^(Q-l))` is the DFT with base
`x`. -/
theorem dit_pow_eq_dft {K : Type} [CommRing K] (x : K) (Q : Nat) (hQ1 : 1 ≤ Q)
    (hx : x ^ 2 ^ (Q - 1) = -1) (u : Nat → K) (t : Nat) (ht : t < 2 ^ Q) :
    dit (fun l => x ^ 2 ^ (Q - l)) Q u t = ∑ n in Finset.range (2 ^ Q), u n * x ^ (n * t) := by
  apply dit_eq_dft (fun l => x ^ 2 ^ (Q - l)) Q ?_ ?_ Q le_rfl x ?_ u t ht
  · intro q h1 h2
    show (x ^ 2 ^ (Q - q)) ^ 2 ^ (q - 1) = -1
    rw [← pow_mul, ← pow_add]
    have e : Q - q + (q - 1) = Q - 1 := by omega
    rw [e, hx]
  · intro q h1 h2
    show x ^ 2 ^ (Q - q) = (x ^ 2 ^ (Q - (q + 1))) ^ 2
    rw [← pow_mul, ← pow_succ]
    congr 2; omega
  · intro _
    show x = x ^ 2 ^ (Q - Q)
    simp

/-! ## Exact reals: `Complex R` has no zero divisors -/

instance {R : Type} [LinearOrderedCommRing R] : NoZeroDivisors (Complex R) where
  eq_zero_or_eq_zero_of_mul_eq_zero := by
    intro a b h
    have h1 : a.real * b.real - a.imag * b.imag = 0 := congrArg Complex.real h
    have h2 : a.real * b.imag + a.imag * b.real = 0 := congrArg Complex.imag h
    have h3 : (a.real * a.real + a.imag * a.imag) * (b.real * b.real + b.imag * b.imag) = 0 := by
      have : (a.real * a.real + a.imag * a.imag) * (b.real * b.real + b.imag * b.imag)
          = (a.real * b.real - a.imag * b.imag) ^ 2 + (a.real * b.imag + a.imag * b.real) ^ 2 := by
        ring
      rw [this, h1, h2]; simp
    rcases mul_eq_zero.mp h3 with h4 | h4
    · left
      have := mul_self_add_mul_self_eq_zero.mp h4
      exact Complex.ext this.1 this.2
    · right
      have := mul_self_add_mul_self_eq_zero.mp h4
      exact Complex.ext this.1 this.2

/-- In a ring without zero divisors a primitive `2^Q`-th root of unity has `x^(2^(Q-1)) = -1`. -/
theorem primitive_root_half {K : Type} [CommRing K] [NoZeroDivisors K] (x : K) (Q : Nat)
    (hQ1 : 1 ≤ Q) (h : IsPrimitiveRoot x (2 ^ Q)) : x ^ 2 ^ (Q - 1) = -1 := by
  have h2 : IsPrimitiveRoot (x ^ 2 ^ (Q - 1)) 2 := by
    apply h.pow (by positivity)
    rw [← pow_succ]; congr 1; omega
  exact h2.eq_neg_one_of_two_right

theorem int_max_log (Q : Nat) (h : (2 : Int) ^ Q ≤ INT_MAX) : Q ≤ 30 := by
  by_contra hc
  have := two_pow_le_int 31 Q (by omega)
  unfold INT_MAX at h
  omega

/-! ## Concrete runs -/

/-- Both transforms on `[1, 2, 3, 4+i]` with the exact base `-i`, evaluated over the Gaussian
integers. -/
theorem transforms_example_four :
    fft_recursive (fun N => if N = 4 then (⟨0, -1⟩ : Complex ℤ) else ⟨-1, 0⟩) 3
        [⟨1, 0⟩, ⟨2, 0⟩, ⟨3, 0⟩, ⟨4, 1⟩] [0, 0, 0, 0] 4
      = Outcome.returned [⟨10, 1⟩, ⟨-3, 2⟩, ⟨-2, -1⟩, ⟨-1, -2⟩] ∧
    fft_iterative (fun N => if N = 4 then (⟨0, -1⟩ : Complex ℤ) else ⟨-1, 0⟩) 4
        [⟨1, 0⟩, ⟨2, 0⟩, ⟨3, 0⟩, ⟨4, 1⟩] [0, 0, 0, 0] 4
      = Outcome.returned [⟨10, 1⟩, ⟨-3, 2⟩, ⟨-2, -1⟩, ⟨-1, -2⟩] := by
  decide

/-- The bit-reversal permutation of width 3. -/
theorem bit_reverse_example_three :
    (List.range 8).map (fun i => bit_reverse i 3) = [0, 4, 2, 6, 1, 5, 3, 7] := by
  decide

/-- Length 6 fails the assertion `N==length` in both transforms. -/
theorem invalid_length_example_six :
    fft_recursive (fun _ => (⟨-1, 0⟩ : Complex ℤ)) 5 [0, 0, 0, 0, 0, 0] [0, 0, 0, 0, 0, 0] 6
      = Outcome.assertion_failed [0, 0, 0, 0, 0, 0] ∧
    fft_iterative (fun _ => (⟨-1, 0⟩ : Complex ℤ)) 5 [0, 0, 0, 0, 0, 0] [0, 0, 0, 0, 0, 0] 6
      = Outcome.assertion_failed [0, 0, 0, 0, 0, 0] := by
  decide

/-! ## The claims -/

theorem dit_out_dft {K : Type} [CommRing K] (x : K) (Q : Nat) (hQ1 : 1 ≤ Q)
    (hx : x ^ 2 ^ (Q - 1) = -1) (inp out : List K) (ho : 2 ^ Q ≤ out.length) (k : Nat)
    (hk : k < 2 ^ Q) :
    (dit_out (fun l => x ^ 2 ^ (Q - l)) Q inp out).getD k 0
      = ∑ n in Finset.range (2 ^ Q), inp.getD n 0 * x ^ (n * k) := by
  rw [getD_dit_out _ _ _ _ _ hk ho, dit_pow_eq_dft x Q hQ1 hx _ k hk]

/-- When the base of each level is the square of the base of the level above, every base is
the matching power of the top-level one. -/
theorem base_chain {K : Type} [Monoid K] (W : Int → K) (Q : Nat)
    (hsq : ∀ q, 1 ≤ q → q < Q → W ((2 : Int) ^ q) = W ((2 : Int) ^ (q + 1)) ^ 2) :
    ∀ d l, 1 ≤ l → l + d = Q → W ((2 : Int) ^ l) = W ((2 : Int) ^ Q) ^ 2 ^ (Q - l) := by
  intro d
  induction d with
  | zero =>
    intro l _ h
    have : l = Q := by omega
    subst this
    simp
  | succ d ih =>
    intro l h1 h
    rw [hsq l h1 (by omega), ih (l + 1) (by omega) (by omega), ← pow_mul, ← pow_succ]
    congr 2; omega

theorem twiddle4_primitive : IsPrimitiveRoot (twiddle4 ((2 : Int) ^ 2)) (2 ^ 2) := by
  have e : twiddle4 ((2 : Int) ^ 2) = ⟨0, -1⟩ := by simp [twiddle4]
  rw [e]
  apply IsPrimitiveRoot.mk_of_lt _ (by norm_num)
  · ext <;> norm_num [pow_succ]
  · intro l h0 h4 h
    have h4 : l < 4 := by simpa using h4
    interval_cases l
    · have := congrArg Complex.real h
      norm_num [pow_succ] at this
    · have := congrArg Complex.real h
      norm_num [pow_succ] at this
    · have := congrArg Complex.real h
      norm_num [pow_succ] at this

theorem twiddle4_square :
    ∀ q, 1 ≤ q → q < 2 → twiddle4 ((2 : Int) ^ q) = twiddle4 ((2 : Int) ^ (q + 1)) ^ 2 := by
  intro q h1 h2
  have : q = 1 := by omega
  subst this
  ext <;> norm_num [twiddle4, pow_succ]

/-- C1: with exact arithmetic, a top-level twiddle base that is a primitive `2^Q`-th root of
unity and the base of each level the square of the base of the level above, `fft_recursive` on
a length `N = 2^Q` (`Q ≥ 1`, `N` an `int`, that is `2^Q ≤ INT_MAX`) returns an output of
length `N` whose entry `k` is the sum over `n < N` of `in[n] * WN^(n*k)`. -/
theorem fft_recursive_computes_dft {R : Type} [LinearOrderedField R] (W : Int → Complex R)
    (Q : Nat) (hQ1 : 1 ≤ Q) (hint : (2 : Int) ^ Q ≤ INT_MAX)
    (hprim : IsPrimitiveRoot (W ((2 : Int) ^ Q)) (2 ^ Q))
    (hsq : ∀ q, 1 ≤ q → q < Q → W ((2 : Int) ^ q) = W ((2 : Int) ^ (q + 1)) ^ 2)
    (inp out : List (Complex R)) (hin : inp.length = 2 ^ Q) (hout : out.length = 2 ^ Q) :
    ∃ res,
      (∀ fuel, Q < fuel →
        fft_recursive W fuel inp out ((2 : Int) ^ Q) = Outcome.returned res) ∧
      res.length = 2 ^ Q ∧
      ∀ k, k < 2 ^ Q →
        res.getD k 0
          = ∑ n in Finset.range (2 ^ Q), inp.getD n 0 * W ((2 : Int) ^ Q) ^ (n * k) := by
  have _ := hin
  have hQ := int_max_log Q hint
  have hx := primitive_root_half _ Q hQ1 hprim
  have hb : dit_out (fun l => W ((2 : Int) ^ l)) Q inp out
      = dit_out (fun l => W ((2 : Int) ^ Q) ^ 2 ^ (Q - l)) Q inp out :=
    dit_out_congr_base _ _ Q
      (fun l h2 hl => base_chain W Q hsq (Q - l) l (by omega) (by omega)) inp out
  refine ⟨dit_out (fun l => W ((2 : Int) ^ l)) Q inp out, fun fuel hf => ?_, ?_, fun k hk => ?_⟩
  · exact fft_recursive_eq W Q hQ1 hQ fuel inp out hf (by omega)
  · rw [length_dit_out, hout]
  · rw [hb]
    exact dit_out_dft _ Q hQ1 hx inp out (by omega) k hk

/-- C1 at `N = 4` over the rationals, with the exact bases `-i` and `-1`. -/
theorem fft_recursive_computes_dft_witness :
    ∃ res : List (Complex ℚ),
      (∀ fuel, 2 < fuel →
        fft_recursive twiddle4 fuel [⟨1, 0⟩, ⟨2, 0⟩, ⟨3, 0⟩, ⟨4, 1⟩] [0, 0, 0, 0] ((2 : Int) ^ 2)
          = Outcome.returned res) ∧
      res.length = 2 ^ 2 ∧
      ∀ k, k < 2 ^ 2 →
        res.getD k 0
          = ∑ n in Finset.range (2 ^ 2),
              List.getD [⟨1, 0⟩, ⟨2, 0⟩, ⟨3, 0⟩, ⟨4, 1⟩] n 0 * twiddle4 ((2 : Int) ^ 2) ^ (n * k) :=
  fft_recursive_computes_dft twiddle4 2 (by decide) (by decide) twiddle4_primitive
    twiddle4_square [⟨1, 0⟩, ⟨2, 0⟩, ⟨3, 0⟩, ⟨4, 1⟩] [0, 0, 0, 0] rfl rfl

/-- C2: with exact arithmetic and `WN` a primitive `N`-th root of unity, `fft_iterative` on a
length `N = 2^Q` (`Q ≥ 1`, `N` an `int`, that is `2^Q ≤ INT_MAX`) returns, after the
bit-reversal copy and the `Q` butterfly stages, an output of length `N` whose entry `k` is the
sum over `n < N` of `in[n] * WN^(n*k)`. -/
theorem fft_iterative_computes_dft {R : Type} [LinearOrderedField R] (W : Int → Complex R)
    (Q : Nat) (hQ1 : 1 ≤ Q) (hint : (2 : Int) ^ Q ≤ INT_MAX)
    (hprim : IsPrimitiveRoot (W ((2 : Int) ^ Q)) (2 ^ Q))
    (inp out : List (Complex R)) (hin : inp.length = 2 ^ Q) (hout : out.length = 2 ^ Q) :
    ∃ res,
      (∀ fuel, 2 ^ Q ≤ fuel →
        fft_iterative W fuel inp out ((2 : Int) ^ Q) = Outcome.returned res) ∧
      res.length = 2 ^ Q ∧
      ∀ k, k < 2 ^ Q →
        res.getD k 0
          = ∑ n in Finset.range (2 ^ Q), inp.getD n 0 * W ((2 : Int) ^ Q) ^ (n * k) := by
  have _ := hin
  have hQ := int_max_log Q hint
  have hx := primitive_root_half _ Q hQ1 hprim
  refine ⟨dit_out (fun l => W ((2 : Int) ^ Q) ^ 2 ^ (Q - l)) Q inp out,
    fun fuel hf => ?_, ?_, fun k hk => ?_⟩
  · exact fft_iterative_eq W Q hQ1 hQ fuel inp out hf (by omega)
  · rw [length_dit_out, hout]
  · exact dit_out_dft _ Q hQ1 hx inp out (by omega) k hk

/-- C2 at `N = 4` over the rationals, with the exact base `-i`. -/
theorem fft_iterative_computes_dft_witness :
    ∃ res : List (Complex ℚ),
      (∀ fuel, 2 ^ 2 ≤ fuel →
        fft_iterative twiddle4 fuel [⟨1, 0⟩, ⟨2, 0⟩, ⟨3, 0⟩, ⟨4, 1⟩] [0, 0, 0, 0] ((2 : Int) ^ 2)
          = Outcome.returned res) ∧
      res.length = 2 ^ 2 ∧
      ∀ k, k < 2 ^ 2 →
        res.getD k 0
          = ∑ n in Finset.range (2 ^ 2),
              List.getD [⟨1, 0⟩, ⟨2, 0⟩, ⟨3, 0⟩, ⟨4, 1⟩] n 0 * twiddle4 ((2 : Int) ^ 2) ^ (n * k) :=
  fft_iterative_computes_dft twiddle4 2 (by decide) (by decide) twiddle4_primitive
    [⟨1, 0⟩, ⟨2, 0⟩, ⟨3, 0⟩, ⟨4, 1⟩] [0, 0, 0, 0] rfl rfl

/-- C3: for a length `N = 2^Q` (`Q ≥ 1`, `N` an `int`, that is `2^Q ≤ INT_MAX`), exact
arithmetic and the twiddle base of each level of the recursion the matching power of the
top-level `WN`, `fft_recursive` and `fft_iterative` return the same output array. -/
theorem transforms_agree {R : Type} [CommRing R] (W : Int → Complex R)
    (Q : Nat) (hQ1 : 1 ≤ Q) (hint : (2 : Int) ^ Q ≤ INT_MAX)
    (hbase : ∀ l, 2 ≤ l → l ≤ Q → W ((2 : Int) ^ l) = W ((2 : Int) ^ Q) ^ 2 ^ (Q - l))
    (inp out : List (Complex R)) (hin : inp.length = 2 ^ Q) (hout : out.length = 2 ^ Q) :
    ∃ res,
      (∀ fuel, Q < fuel →
        fft_recursive W fuel inp out ((2 : Int) ^ Q) = Outcome.returned res) ∧
      (∀ fuel, 2 ^ Q ≤ fuel →
        fft_iterative W fuel inp out ((2 : Int) ^ Q) = Outcome.returned res) ∧
      res.length = 2 ^ Q := by
  have _ := hin
  have hQ := int_max_log Q hint
  refine ⟨dit_out (fun l => W ((2 : Int) ^ l)) Q inp out, fun fuel hf => ?_, fun fuel hf => ?_,
    by rw [length_dit_out, hout]⟩
  · exact fft_recursive_eq W Q hQ1 hQ fuel inp out hf (by omega)
  · rw [dit_out_congr_base _ _ Q hbase inp out]
    exact fft_iterative_eq W Q hQ1 hQ fuel inp out hf (by omega)

/-- C3 at `N = 4` over the rationals. -/
theorem transforms_agree_witness :
    ∃ res : List (Complex ℚ),
      (∀ fuel, 2 < fuel →
        fft_recursive twiddle4 fuel [⟨1, 0⟩, ⟨2, 0⟩, ⟨3, 0⟩, ⟨4, 1⟩] [0, 0, 0, 0] ((2 : Int) ^ 2)
          = Outcome.returned res) ∧
      (∀ fuel, 2 ^ 2 ≤ fuel →
        fft_iterative twiddle4 fuel [⟨1, 0⟩, ⟨2, 0⟩, ⟨3, 0⟩, ⟨4, 1⟩] [0, 0, 0, 0] ((2 : Int) ^ 2)
          = Outcome.returned res) ∧
      res.length = 2 ^ 2 :=
  transforms_agree twiddle4 2 (by decide) (by decide)
    (fun l h2 hl => by
      have : l = 2 := by omega
      subst this
      simp)
    [⟨1, 0⟩, ⟨2, 0⟩, ⟨3, 0⟩, ⟨4, 1⟩] [0, 0, 0, 0] rfl rfl

/-! ## Lengths above `2^30`: the doubling of `N` overflows -/

theorem length_loop_zero (L : Int) (hL : 0 < L) :
    ∀ (fuel : Nat) (Q : Int), length_loop L fuel 0 Q = none := by
  intro fuel
  induction fuel with
  | zero => intro Q; rfl
  | succ fuel ih =>
    intro Q
    rw [length_loop, if_pos hL]
    have : wrap32 (0 * 2) = 0 := by decide
    rw [this]
    exact ih _

theorem length_loop_top (L : Int) (h1 : 2 ^ 30 < L) :
    ∀ (fuel : Nat) (Q : Int), length_loop L fuel (2 ^ 30) Q = none := by
  intro fuel Q
  rcases fuel with _ | _ | fuel
  · rfl
  · have e : wrap32 (2 ^ 30 * 2) = -2147483648 := by decide
    rw [length_loop, if_pos h1, e]
    rfl
  · have e : wrap32 (2 ^ 30 * 2) = -2147483648 := by decide
    have e2 : wrap32 (-2147483648 * 2) = 0 := by decide
    rw [length_loop, if_pos h1, e, length_loop, if_pos (by omega), e2]
    exact length_loop_zero L (by omega) _ _

/-- For a length above `2^30` the loop `while (N<length) { N *= 2; Q++; }` never stops: `N`
runs through `1, 2, .., 2^30`, wraps to `-2^31`, then stays `0`. -/
theorem length_loop_overflow (L : Int) (h1 : 2 ^ 30 < L) :
    ∀ (d a fuel : Nat) (Q : Int), a + d = 30 → length_loop L fuel (2 ^ a) Q = none := by
  intro d
  induction d with
  | zero =>
    intro a fuel Q h
    have : a = 30 := by omega
    subst this
    exact length_loop_top L h1 fuel Q
  | succ d ih =>
    intro a fuel Q h
    rcases fuel with _ | fuel
    · rfl
    · have hlt : (2 : Int) ^ a < L := lt_trans (two_pow_lt_int a 30 (by omega)) h1
      have h30 : (2 : Int) ^ (a + 1) ≤ 2 ^ 30 := two_pow_le_int (a + 1) 30 (by omega)
      have hpos : (0 : Int) ≤ 2 ^ (a + 1) := by positivity
      have e1 : wrap32 ((2 : Int) ^ a * 2) = 2 ^ (a + 1) := by
        rw [← pow_succ]
        exact wrap32_of_range _ hpos (by unfold INT_MAX; omega)
      rw [length_loop, if_pos hlt, e1]
      exact ih (a + 1) fuel _ (by omega)

theorem length_loop_diverges (L : Int) (h1 : 2 ^ 30 < L) (fuel : Nat) :
    length_loop L fuel 1 0 = none := by
  have := length_loop_overflow L h1 30 0 fuel 0 (by omega)
  simpa using this

section
variable {R : Type} [CommRing R]

/-- C4, at the length `2^30 + 1`: it is not a power of two, yet neither transform reaches its
assertion, whatever fuel the loops are given: the doubling of `N` overflows and the length
loop runs forever. -/
theorem invalid_length_overflow_never_asserts (W : Int → Complex R)
    (inp out : List (Complex R)) (fuel : Nat) :
    fft_recursive W fuel inp out 1073741825 = Outcome.out_of_fuel ∧
    fft_iterative W fuel inp out 1073741825 = Outcome.out_of_fuel := by
  constructor
  · rcases fuel with _ | fuel
    · rfl
    · rw [fft_recursive, if_neg (by decide), if_neg (by decide),
        length_loop_diverges _ (by decide)]
  · rw [fft_iterative, if_neg (by decide), length_loop_diverges _ (by decide)]

end

/-! ## Invalid lengths up to `2^30` fail the assertion -/

/-- For a length of at most `2^30` the length loop stops at the least power of two that is not
below the length. -/
theorem length_loop_small (L : Int) (hL : L ≤ 2 ^ 30) :
    ∀ (d a fuel : Nat), a + d = 30 → d < fuel → (a = 0 ∨ (2 : Int) ^ (a - 1) < L) →
      ∃ b : Nat, b ≤ 30 ∧
        length_loop L fuel (2 ^ a) (a : Int) = some ((2 : Int) ^ b, (b : Int)) ∧
        L ≤ 2 ^ b ∧ (b = 0 ∨ (2 : Int) ^ (b - 1) < L) := by
  intro d
  induction d with
  | zero =>
    intro a fuel h hf ha
    have : a = 30 := by omega
    subst this
    obtain ⟨fuel, rfl⟩ : ∃ f, fuel = f + 1 := ⟨fuel - 1, by omega⟩
    exact ⟨30, le_rfl, by rw [length_loop, if_neg (by omega)], hL, ha⟩
  | succ d ih =>
    intro a fuel h hf ha
    obtain ⟨fuel, rfl⟩ : ∃ f, fuel = f + 1 := ⟨fuel - 1, by omega⟩
    by_cases hlt : (2 : Int) ^ a < L
    · have h30 : (2 : Int) ^ (a + 1) ≤ 2 ^ 30 := two_pow_le_int (a + 1) 30 (by omega)
      have hpos : (0 : Int) ≤ 2 ^ (a + 1) := by positivity
      have e1 : wrap32 ((2 : Int) ^ a * 2) = 2 ^ (a + 1) := by
        rw [← pow_succ]
        exact wrap32_of_range _ hpos (by unfold INT_MAX; omega)
      have e2 : wrap32 ((a : Int) + 1) = ((a + 1 : Nat) : Int) := by
        rw [wrap32_of_range _ (by omega) (by unfold INT_MAX; omega)]
        push_cast; rfl
      obtain ⟨b, hb, hrun, h1, h2⟩ := ih (a + 1) fuel (by omega) (by omega)
        (Or.inr (by rw [Nat.add_sub_cancel]; exact hlt))
      exact ⟨b, hb, by rw [length_loop, if_pos hlt, e1, e2]; exact hrun, h1, h2⟩
    · exact ⟨a, by omega, by rw [length_loop, if_neg hlt], by omega, ha⟩

section
variable {R : Type} [CommRing R]

/-- A length of at most `2^30` that is below 2 or not a power of two makes both transforms
fail an assertion, with the output array untouched. -/
theorem invalid_length_asserts (W : Int → Complex R) (inp out : List (Complex R))
    (length : Int) (hsmall : length ≤ 2 ^ 30)
    (hbad : length < 2 ∨ ¬ ∃ q : Nat, length = 2 ^ q) (fuel : Nat) (hf : 31 ≤ fuel) :
    fft_recursive W fuel inp out length = Outcome.assertion_failed out ∧
    fft_iterative W fuel inp out length = Outcome.assertion_failed out := by
  have hne2 : ¬ (length = 2) := by
    rcases hbad with h | h
    · omega
    · intro h2; exact h ⟨1, by rw [h2]; norm_num⟩
  obtain ⟨fuel, rfl⟩ : ∃ f, fuel = f + 1 := ⟨fuel - 1, by omega⟩
  by_cases hlt : length < 2
  · constructor
    · rw [fft_recursive, if_neg hne2, if_pos (by omega)]
    · rw [fft_iterative, if_pos (by omega)]
  · have hnp : ¬ ∃ q : Nat, length = 2 ^ q := by
      rcases hbad with h | h
      · omega
      · exact h
    obtain ⟨b, -, hrun, -, -⟩ := length_loop_small length hsmall 30 0 (fuel + 1) (by omega)
      (by omega) (Or.inl rfl)
    simp only [pow_zero, Nat.cast_zero] at hrun
    have hNne : ¬ ((2 : Int) ^ b = length) := fun h => hnp ⟨b, h.symm⟩
    constructor
    · rw [fft_recursive, if_neg hne2, if_neg (by omega), hrun]
      simp only [hNne, not_false_eq_true, if_true]
    · rw [fft_iterative, if_neg (by omega), hrun]
      simp only [hNne, not_false_eq_true, if_true]

end

/-! ## Linearity, base case, impulse -/

theorem getD_lin_comb {K : Type} [CommRing K] (a b : K) (x y : List K)
    (h : x.length = y.length) (i : Nat) :
    (List.zipWith (fun xi yi => a * xi + b * yi) x y).getD i 0
      = a * x.getD i 0 + b * y.getD i 0 := by
  by_cases hi : i < x.length
  · have hy : i < y.length := by omega
    rw [List.getD_eq_getElem _ _ (by simp; omega), List.getD_eq_getElem _ _ hi,
      List.getD_eq_getElem _ _ hy]
    simp
  · have hy : ¬ i < y.length := by omega
    rw [List.getD_eq_default _ _ (by simp; omega), List.getD_eq_default _ _ (by omega),
      List.getD_eq_default _ _ (by omega)]
    simp

theorem dit_out_linear {K : Type} [CommRing K] (w : Nat → K) (Q : Nat) (a b : K)
    (x y out : List K) (h : x.length = y.length) (ho : 2 ^ Q ≤ out.length) (k : Nat)
    (hk : k < 2 ^ Q) :
    (dit_out w Q (List.zipWith (fun xi yi => a * xi + b * yi) x y) out).getD k 0
      = a * (dit_out w Q x out).getD k 0 + b * (dit_out w Q y out).getD k 0 := by
  rw [getD_dit_out _ _ _ _ _ hk ho, getD_dit_out _ _ _ _ _ hk ho, getD_dit_out _ _ _ _ _ hk ho,
    ← dit_linear]
  congr 1
  funext i
  exact getD_lin_comb a b x y h i

section
variable {R : Type} [CommRing R]

/-- C5: for a length `N = 2^Q` (`Q ≥ 1`, `N` an `int`, that is `2^Q ≤ INT_MAX`), scalars `a`,
`b` and inputs `x`, `y` of length `N`, each transform of `a*x + b*y` is `a` times the transform
of `x` plus `b` times the transform of `y`, entry by entry. -/
theorem transforms_linear (W : Int → Complex R) (Q : Nat) (hQ1 : 1 ≤ Q)
    (hint : (2 : Int) ^ Q ≤ INT_MAX) (a b : Complex R) (x y out : List (Complex R))
    (hx : x.length = 2 ^ Q) (hy : y.length = 2 ^ Q) (hout : out.length = 2 ^ Q) :
    (∃ rx ry rz,
      (∀ fuel, Q < fuel →
        fft_recursive W fuel x out ((2 : Int) ^ Q) = Outcome.returned rx ∧
        fft_recursive W fuel y out ((2 : Int) ^ Q) = Outcome.returned ry ∧
        fft_recursive W fuel (List.zipWith (fun xi yi => a * xi + b * yi) x y) out
          ((2 : Int) ^ Q) = Outcome.returned rz) ∧
      ∀ k, k < 2 ^ Q → rz.getD k 0 = a * rx.getD k 0 + b * ry.getD k 0) ∧
    (∃ rx ry rz,
      (∀ fuel, 2 ^ Q ≤ fuel →
        fft_iterative W fuel x out ((2 : Int) ^ Q) = Outcome.returned rx ∧
        fft_iterative W fuel y out ((2 : Int) ^ Q) = Outcome.returned ry ∧
        fft_iterative W fuel (List.zipWith (fun xi yi => a * xi + b * yi) x y) out
          ((2 : Int) ^ Q) = Outcome.returned rz) ∧
      ∀ k, k < 2 ^ Q → rz.getD k 0 = a * rx.getD k 0 + b * ry.getD k 0) := by
  have hQ := int_max_log Q hint
  have hxy : x.length = y.length := by rw [hx, hy]
  have ho : 2 ^ Q ≤ out.length := by omega
  constructor
  · refine ⟨_, _, _, fun fuel hf => ⟨fft_recursive_eq W Q hQ1 hQ fuel x out hf ho,
      fft_recursive_eq W Q hQ1 hQ fuel y out hf ho,
      fft_recursive_eq W Q hQ1 hQ fuel _ out hf ho⟩, fun k hk => ?_⟩
    exact dit_out_linear _ Q a b x y out hxy ho k hk
  · refine ⟨_, _, _, fun fuel hf => ⟨fft_iterative_eq W Q hQ1 hQ fuel x out hf ho,
      fft_iterative_eq W Q hQ1 hQ fuel y out hf ho,
      fft_iterative_eq W Q hQ1 hQ fuel _ out hf ho⟩, fun k hk => ?_⟩
    exact dit_out_linear _ Q a b x y out hxy ho k hk

end

/-- C5 at `N = 4` over the rationals. -/
theorem transforms_linear_witness :
    (∃ rx ry rz : List (Complex ℚ),
      (∀ fuel, 2 < fuel →
        fft_recursive twiddle4 fuel [⟨1, 0⟩, ⟨2, 0⟩, ⟨3, 0⟩, ⟨4, 1⟩] [0, 0, 0, 0] ((2 : Int) ^ 2)
          = Outcome.returned rx ∧
        fft_recursive twiddle4 fuel [⟨0, 1⟩, ⟨5, 0⟩, ⟨0, 0⟩, ⟨7, 2⟩] [0, 0, 0, 0] ((2 : Int) ^ 2)
          = Outcome.returned ry ∧
        fft_recursive twiddle4 fuel
          (List.zipWith (fun xi yi => (⟨2, 1⟩ : Complex ℚ) * xi + ⟨0, 3⟩ * yi)
            [⟨1, 0⟩, ⟨2, 0⟩, ⟨3, 0⟩, ⟨4, 1⟩] [⟨0, 1⟩, ⟨5, 0⟩, ⟨0, 0⟩, ⟨7, 2⟩])
          [0, 0, 0, 0] ((2 : Int) ^ 2) = Outcome.returned rz) ∧
      ∀ k, k < 2 ^ 2 → rz.getD k 0 = ⟨2, 1⟩ * rx.getD k 0 + ⟨0, 3⟩ * ry.getD k 0) ∧
    (∃ rx ry rz : List (Complex ℚ),
      (∀ fuel, 2 ^ 2 ≤ fuel →
        fft_iterative twiddle4 fuel [⟨1, 0⟩, ⟨2, 0⟩, ⟨3, 0⟩, ⟨4, 1⟩] [0, 0, 0, 0] ((2 : Int) ^ 2)
          = Outcome.returned rx ∧
        fft_iterative twiddle4 fuel [⟨0, 1⟩, ⟨5, 0⟩, ⟨0, 0⟩, ⟨7, 2⟩] [0, 0, 0, 0] ((2 : Int) ^ 2)
          = Outcome.returned ry ∧
        fft_iterative twiddle4 fuel
          (List.zipWith (fun xi yi => (⟨2, 1⟩ : Complex ℚ) * xi + ⟨0, 3⟩ * yi)
            [⟨1, 0⟩, ⟨2, 0⟩, ⟨3, 0⟩, ⟨4, 1⟩] [⟨0, 1⟩, ⟨5, 0⟩, ⟨0, 0⟩, ⟨7, 2⟩])
          [0, 0, 0, 0] ((2 : Int) ^ 2) = Outcome.returned rz) ∧
      ∀ k, k < 2 ^ 2 → rz.getD k 0 = ⟨2, 1⟩ * rx.getD k 0 + ⟨0, 3⟩ * ry.getD k 0) :=
  transforms_linear twiddle4 2 (by decide) (by decide) ⟨2, 1⟩ ⟨0, 3⟩
    [⟨1, 0⟩, ⟨2, 0⟩, ⟨3, 0⟩, ⟨4, 1⟩] [⟨0, 1⟩, ⟨5, 0⟩, ⟨0, 0⟩, ⟨7, 2⟩] [0, 0, 0, 0] rfl rfl rfl

section
variable {R : Type} [CommRing R]

theorem dit_out_two (w : Nat → Complex R) (in0 in1 : Complex R) (out : List (Complex R))
    (hout : out.length = 2) :
    dit_out w 1 [in0, in1] out = [in0 + in1, in0 - in1] := by
  simp [dit_out, hout, List.range_succ, dit]

/-- C6: on every pair `in[0]`, `in[1]` the length-2 transform returns `in[0] + in[1]` and
`in[0] - in[1]`, by `fft_recursive` and by `fft_iterative`; on `[1+0i, -1+0i]` both give
`[0+0i, 2+0i]`. -/
theorem base_case_length_two (W : Int → Complex R) (in0 in1 : Complex R)
    (out : List (Complex R)) (hout : out.length = 2) :
    (∀ fuel, 1 ≤ fuel →
      fft_recursive W fuel [in0, in1] out 2 = Outcome.returned [in0 + in1, in0 - in1]) ∧
    (∀ fuel, 2 ≤ fuel →
      fft_iterative W fuel [in0, in1] out 2 = Outcome.returned [in0 + in1, in0 - in1]) ∧
    (∀ fuel, 1 ≤ fuel →
      fft_recursive W fuel [⟨1, 0⟩, ⟨-1, 0⟩] out 2 = Outcome.returned [⟨0, 0⟩, ⟨2, 0⟩]) ∧
    (∀ fuel, 2 ≤ fuel →
      fft_iterative W fuel [⟨1, 0⟩, ⟨-1, 0⟩] out 2 = Outcome.returned [⟨0, 0⟩, ⟨2, 0⟩]) := by
  have hrec : ∀ (a b : Complex R) (fuel : Nat), 1 ≤ fuel →
      fft_recursive W fuel [a, b] out 2 = Outcome.returned [a + b, a - b] := by
    intro a b fuel hf
    obtain ⟨fuel, rfl⟩ : ∃ f, fuel = f + 1 := ⟨fuel - 1, by omega⟩
    match out, hout with
    | [o0, o1], _ => rw [fft_recursive, if_pos rfl]; rfl
  have hit : ∀ (a b : Complex R) (fuel : Nat), 2 ≤ fuel →
      fft_iterative W fuel [a, b] out 2 = Outcome.returned [a + b, a - b] := by
    intro a b fuel hf
    have h := fft_iterative_eq W 1 le_rfl (by omega) fuel [a, b] out (by simpa using hf)
      (by simp [hout])
    rw [pow_one] at h
    rw [h, dit_out_two _ a b out hout]
  have hval : ([(⟨1, 0⟩ : Complex R) + ⟨-1, 0⟩, (⟨1, 0⟩ : Complex R) - ⟨-1, 0⟩]
      : List (Complex R)) = [⟨0, 0⟩, ⟨2, 0⟩] := by
    have e1 : (⟨1, 0⟩ : Complex R) + ⟨-1, 0⟩ = ⟨0, 0⟩ := by ext <;> simp
    have e2 : (⟨1, 0⟩ : Complex R) - ⟨-1, 0⟩ = ⟨2, 0⟩ := by
      ext
      · simp only [Complex.sub_real]; ring
      · simp
    rw [e1, e2]
  refine ⟨hrec in0 in1, hit in0 in1, fun fuel hf => ?_, fun fuel hf => ?_⟩
  · rw [hrec _ _ fuel hf, hval]
  · rw [hit _ _ fuel hf, hval]

theorem getD_impulse (n i : Nat) :
    ((1 : Complex R) :: List.replicate n 0).getD i 0 = if i = 0 then 1 else 0 := by
  cases i with
  | zero => simp
  | succ i =>
    rw [List.getD_cons_succ, getD_replicate_zero]
    simp

theorem dit_out_impulse (w : Nat → Complex R) (Q : Nat) (out : List (Complex R))
    (hout : out.length = 2 ^ Q) :
    dit_out w Q ((1 : Complex R) :: List.replicate (2 ^ Q - 1) 0) out
      = List.replicate (2 ^ Q) 1 := by
  apply list_ext_getD (0 : Complex R)
  · rw [length_dit_out, hout, List.length_replicate]
  · intro i hi
    rw [length_dit_out, hout] at hi
    rw [getD_dit_out _ _ _ _ _ hi (by omega)]
    have e : (fun i => ((1 : Complex R) :: List.replicate (2 ^ Q - 1) 0).getD i 0)
        = (fun i => if i = 0 then 1 else 0) := by
      funext j; exact getD_impulse _ j
    rw [e, dit_impulse, List.getD_eq_getElem _ _ (by simpa using hi)]
    simp

/-- C7: for a length `N = 2^Q` (`Q ≥ 1`, `N` an `int`, that is `2^Q ≤ INT_MAX`) the input that
is `1+0i` at index 0 and `0` elsewhere is transformed, by `fft_recursive` and by
`fft_iterative`, into the array of `N` entries `1+0i`. -/
theorem impulse_flat_spectrum (W : Int → Complex R) (Q : Nat) (hQ1 : 1 ≤ Q)
    (hint : (2 : Int) ^ Q ≤ INT_MAX) (out : List (Complex R)) (hout : out.length = 2 ^ Q) :
    (∀ fuel, Q < fuel →
      fft_recursive W fuel (⟨1, 0⟩ :: List.replicate (2 ^ Q - 1) ⟨0, 0⟩) out ((2 : Int) ^ Q)
        = Outcome.returned (List.replicate (2 ^ Q) ⟨1, 0⟩)) ∧
    (∀ fuel, 2 ^ Q ≤ fuel →
      fft_iterative W fuel (⟨1, 0⟩ :: List.replicate (2 ^ Q - 1) ⟨0, 0⟩) out ((2 : Int) ^ Q)
        = Outcome.returned (List.replicate (2 ^ Q) ⟨1, 0⟩)) := by
  have hQ := int_max_log Q hint
  constructor
  · intro fuel hf
    rw [fft_recursive_eq W Q hQ1 hQ fuel _ out hf (by omega)]
    exact congrArg Outcome.returned (dit_out_impulse _ Q out hout)
  · intro fuel hf
    rw [fft_iterative_eq W Q hQ1 hQ fuel _ out hf (by omega)]
    exact congrArg Outcome.returned (dit_out_impulse _ Q out hout)

end

/-- C6 on the input `[1+0i, -1+0i]` over the integers. -/
theorem base_case_length_two_witness :
    (∀ fuel, 1 ≤ fuel →
      fft_recursive (fun _ => (⟨-1, 0⟩ : Complex ℤ)) fuel [⟨1, 0⟩, ⟨-1, 0⟩] [0, 0] 2
        = Outcome.returned [⟨1, 0⟩ + ⟨-1, 0⟩, ⟨1, 0⟩ - ⟨-1, 0⟩]) ∧
    (∀ fuel, 2 ≤ fuel →
      fft_iterative (fun _ => (⟨-1, 0⟩ : Complex ℤ)) fuel [⟨1, 0⟩, ⟨-1, 0⟩] [0, 0] 2
        = Outcome.returned [⟨1, 0⟩ + ⟨-1, 0⟩, ⟨1, 0⟩ - ⟨-1, 0⟩]) ∧
    (∀ fuel, 1 ≤ fuel →
      fft_recursive (fun _ => (⟨-1, 0⟩ : Complex ℤ)) fuel [⟨1, 0⟩, ⟨-1, 0⟩] [0, 0] 2
        = Outcome.returned [⟨0, 0⟩, ⟨2, 0⟩]) ∧
    (∀ fuel, 2 ≤ fuel →
      fft_iterative (fun _ => (⟨-1, 0⟩ : Complex ℤ)) fuel [⟨1, 0⟩, ⟨-1, 0⟩] [0, 0] 2
        = Outcome.returned [⟨0, 0⟩, ⟨2, 0⟩]) :=
  base_case_length_two (fun _ => (⟨-1, 0⟩ : Complex ℤ)) ⟨1, 0⟩ ⟨-1, 0⟩ [0, 0] rfl

/-- C7 at `N = 4`: `[1, 0, 0, 0]` gives `[1, 1, 1, 1]`. -/
theorem impulse_flat_spectrum_witness :
    (∀ fuel, 2 < fuel →
      fft_recursive twiddle4 fuel [⟨1, 0⟩, ⟨0, 0⟩, ⟨0, 0⟩, ⟨0, 0⟩] [0, 0, 0, 0] 4
        = Outcome.returned [⟨1, 0⟩, ⟨1, 0⟩, ⟨1, 0⟩, ⟨1, 0⟩]) ∧
    (∀ fuel, 4 ≤ fuel →
      fft_iterative twiddle4 fuel [⟨1, 0⟩, ⟨0, 0⟩, ⟨0, 0⟩, ⟨0, 0⟩] [0, 0, 0, 0] 4
        = Outcome.returned [⟨1, 0⟩, ⟨1, 0⟩, ⟨1, 0⟩, ⟨1, 0⟩]) :=
  impulse_flat_spectrum twiddle4 2 (by decide) (by decide) [0, 0, 0, 0] rfl

/-- C8: for a width `0 ≤ w ≤ 32` and an index below `2^w`, bit `i` of `bit_reverse(index, w)`
is bit `w-1-i` of `index` for every `i < w`, and every bit at a position `≥ w` is zero;
`bit_reverse(3, 3) = 6`, and `bit_reverse(0, w) = 0` for every width, of any sign or size. -/
theorem bit_reverse_reverses_low_bits (index w : Nat) (hw : w ≤ 32) (hidx : index < 2 ^ w) :
    (∀ i, i < w → (bit_reverse index (w : Int)).testBit i = index.testBit (w - 1 - i)) ∧
    (∀ i, w ≤ i → (bit_reverse index (w : Int)).testBit i = false) ∧
    bit_reverse 3 3 = 6 ∧
    ∀ width : Int, bit_reverse 0 width = 0 := by
  have _ := hidx
  refine ⟨fun i hi => ?_, fun i hi => ?_, by decide, fun width => ?_⟩
  · rw [bit_reverse_eq_brev _ _ hw, testBit_brev, if_pos hi]
  · rw [bit_reverse_eq_brev _ _ hw, testBit_brev, if_neg (by omega)]
  · rw [bit_reverse_eq, brev_zero]

/-- C8 at `index = 3`, `w = 3`. -/
theorem bit_reverse_reverses_low_bits_witness :
    (∀ i, i < 3 → (bit_reverse 3 ((3 : Nat) : Int)).testBit i = Nat.testBit 3 (3 - 1 - i)) ∧
    (∀ i, 3 ≤ i → (bit_reverse 3 ((3 : Nat) : Int)).testBit i = false) ∧
    bit_reverse 3 3 = 6 ∧
    ∀ width : Int, bit_reverse 0 width = 0 :=
  bit_reverse_reverses_low_bits 3 3 (by decide) (by decide)

section
variable {R : Type} [CommRing R]

/-- Bit reversal of width `Q` is a permutation of `Fin (2^Q)`, being its own inverse. -/
theorem brev_perm_exists (Q : Nat) :
    ∃ σ : Equiv.Perm (Fin (2 ^ Q)), ∀ i : Fin (2 ^ Q), ((σ i : Fin (2 ^ Q)) : Nat) = brev Q i :=
  ⟨{ toFun := fun i => ⟨brev Q i, brev_lt Q i⟩
     invFun := fun i => ⟨brev Q i, brev_lt Q i⟩
     left_inv := fun i => Fin.ext (brev_brev Q i i.isLt)
     right_inv := fun i => Fin.ext (brev_brev Q i i.isLt) }, fun _ => rfl⟩

/-- C9: for a width `0 ≤ Q < 32` the map `i ↦ bit_reverse(i, Q)` sends `[0, 2^Q)` into itself
and is injective and surjective there, and the working buffer `X[i] = in[bit_reverse(i, Q)]`
of `fft_iterative` is a permutation of an input of length `2^Q`. -/
theorem bit_reverse_bijection (Q : Nat) (hQ : Q < 32) :
    Set.BijOn (fun i => bit_reverse i (Q : Int)) (Set.Iio (2 ^ Q)) (Set.Iio (2 ^ Q)) ∧
    ∀ inp : List (Complex R), inp.length = 2 ^ Q →
      List.Perm (bit_reversed_copy inp ((2 : Int) ^ Q) (Q : Int)) inp := by
  have hb : ∀ i, bit_reverse i (Q : Int) = brev Q i :=
    fun i => bit_reverse_eq_brev i Q (by omega)
  constructor
  · refine ⟨fun i _ => ?_, fun i hi j hj h => ?_, fun j hj => ?_⟩
    · show bit_reverse i (Q : Int) < 2 ^ Q
      rw [hb]; exact brev_lt Q i
    · have h' : brev Q i = brev Q j := by simpa only [hb] using h
      rw [← brev_brev Q i hi, ← brev_brev Q j hj, h']
    · refine ⟨brev Q j, brev_lt Q j, ?_⟩
      show bit_reverse (brev Q j) (Q : Int) = j
      rw [hb]; exact brev_brev Q j hj
  · intro inp hin
    have hS := bit_reversed_copy_spec inp Q (by omega)
    obtain ⟨σ, hσ⟩ := brev_perm_exists Q
    have e1 : bit_reversed_copy inp ((2 : Int) ^ Q) (Q : Int)
        = List.ofFn ((fun i : Fin (2 ^ Q) => inp.getD i 0) ∘ σ) := by
      apply list_ext_getD (0 : Complex R)
      · rw [hS.1, List.length_ofFn]
      · intro i hi
        rw [hS.1] at hi
        rw [hS.2 i hi, getD_ofFn _ _ _ i hi]
        show inp.getD (brev Q i) 0 = inp.getD (σ ⟨i, hi⟩) 0
        rw [hσ]
    have e2 : inp = List.ofFn (fun i : Fin (2 ^ Q) => inp.getD i 0) := by
      apply list_ext_getD (0 : Complex R)
      · rw [hin, List.length_ofFn]
      · intro i hi
        rw [hin] at hi
        rw [getD_ofFn _ _ _ i hi]
    rw [e1]
    conv_rhs => rw [e2]
    exact Equiv.Perm.ofFn_comp_perm _ _

end

/-- C9 at `Q = 3`. -/
theorem bit_reverse_bijection_witness :
    Set.BijOn (fun i => bit_reverse i ((3 : Nat) : Int)) (Set.Iio (2 ^ 3)) (Set.Iio (2 ^ 3)) ∧
    ∀ inp : List (Complex ℤ), inp.length = 2 ^ 3 →
      List.Perm (bit_reversed_copy inp ((2 : Int) ^ 3) ((3 : Nat) : Int)) inp :=
  bit_reverse_bijection 3 (by decide)

section
variable {R : Type} [CommRing R]

/-- C10: for `N = 2^Q` with `Q ≥ 1` the twiddle table has `N/2` entries, `WNk[0] = 1`,
`WNk[k] = WN * WNk[k-1]` for `0 < k < N/2`, hence `WNk[k] = WN^k` for every `k < N/2`; the
table of `fft_iterative` is the table of `fft_recursive`. -/
theorem twiddle_table_powers (WN : Complex R) (Q : Nat) (hQ1 : 1 ≤ Q) :
    (WNk_recursive WN ((2 : Int) ^ Q)).length = 2 ^ Q / 2 ∧
    (WNk_recursive WN ((2 : Int) ^ Q)).getD 0 0 = ⟨1, 0⟩ ∧
    (∀ k, 1 ≤ k → k < 2 ^ Q / 2 →
      (WNk_recursive WN ((2 : Int) ^ Q)).getD k 0
        = WN * (WNk_recursive WN ((2 : Int) ^ Q)).getD (k - 1) 0) ∧
    (∀ k, k < 2 ^ Q / 2 → (WNk_recursive WN ((2 : Int) ^ Q)).getD k 0 = WN ^ k) ∧
    WNk_iterative WN ((2 : Int) ^ Q) = WNk_recursive WN ((2 : Int) ^ Q) := by
  obtain ⟨P, rfl⟩ : ∃ P, Q = P + 1 := ⟨Q - 1, by omega⟩
  have hT := twiddle_loop WN (2 ^ P) Nat.one_le_two_pow
  have hhalf : 2 ^ (P + 1) / 2 = 2 ^ P := by rw [pow_succ]; omega
  have hlen : (WNk_recursive WN ((2 : Int) ^ (P + 1))).length = 2 ^ P := by
    unfold WNk_recursive
    simp only [int_pow_succ_div, int_pow_toNat]
    exact hT.1
  have hpow : ∀ k, k < 2 ^ P → (WNk_recursive WN ((2 : Int) ^ (P + 1))).getD k 0 = WN ^ k := by
    intro k hk
    unfold WNk_recursive
    simp only [int_pow_succ_div, int_pow_toNat]
    exact hT.2 k hk
  rw [hhalf]
  refine ⟨hlen, ?_, fun k h1 hk => ?_, hpow, rfl⟩
  · rw [hpow 0 (by positivity), pow_zero]; rfl
  · rw [hpow k hk, hpow (k - 1) (by omega), ← pow_succ']
    congr 1; omega

end

/-- C10 at `N = 4` with `WN = -i` over the rationals. -/
theorem twiddle_table_powers_witness :
    (WNk_recursive (⟨0, -1⟩ : Complex ℚ) ((2 : Int) ^ 2)).length = 2 ^ 2 / 2 ∧
    (WNk_recursive (⟨0, -1⟩ : Complex ℚ) ((2 : Int) ^ 2)).getD 0 0 = ⟨1, 0⟩ ∧
    (∀ k, 1 ≤ k → k < 2 ^ 2 / 2 →
      (WNk_recursive (⟨0, -1⟩ : Complex ℚ) ((2 : Int) ^ 2)).getD k 0
        = ⟨0, -1⟩ * (WNk_recursive (⟨0, -1⟩ : Complex ℚ) ((2 : Int) ^ 2)).getD (k - 1) 0) ∧
    (∀ k, k < 2 ^ 2 / 2 →
      (WNk_recursive (⟨0, -1⟩ : Complex ℚ) ((2 : Int) ^ 2)).getD k 0 = ⟨0, -1⟩ ^ k) ∧
    WNk_iterative (⟨0, -1⟩ : Complex ℚ) ((2 : Int) ^ 2)
      = WNk_recursive (⟨0, -1⟩ : Complex ℚ) ((2 : Int) ^ 2) :=
  twiddle_table_powers ⟨0, -1⟩ 2 (by decide)

/-! ## Termination, fail-fast, division -/

/-- C11, at the length `2^30 + 1` with `int` arithmetic modulo `2^32`: the loop
`while (N<length) { N *= 2; Q++; }` has not stopped after any number of iterations, so this
call neither runs to completion nor fails the length validation. -/
theorem length_loop_never_stops (fuel : Nat) : length_loop 1073741825 fuel 1 0 = none :=
  length_loop_diverges 1073741825 (by decide) fuel

section
variable {R : Type} [CommRing R]

/-- Every call with a length of at most `2^30` ends, given fuel `2^30 + 31`: a power of two
`≥ 2` makes both transforms return, any other length makes both fail an assertion. -/
theorem transforms_terminate_small (W : Int → Complex R) (inp out : List (Complex R))
    (length : Int) (hsmall : length ≤ 2 ^ 30) (hout : length.toNat ≤ out.length)
    (fuel : Nat) (hf : 2 ^ 30 + 31 ≤ fuel) :
    fft_recursive W fuel inp out length ≠ Outcome.out_of_fuel ∧
    fft_iterative W fuel inp out length ≠ Outcome.out_of_fuel := by
  by_cases hbad : length < 2 ∨ ¬ ∃ q : Nat, length = 2 ^ q
  · obtain ⟨h1, h2⟩ := invalid_length_asserts W inp out length hsmall hbad fuel (by omega)
    rw [h1, h2]
    constructor <;> (intro h; cases h)
  · have hge : 2 ≤ length := by
      by_contra hc; exact hbad (Or.inl (by omega))
    obtain ⟨Q, hQ⟩ : ∃ q : Nat, length = 2 ^ q := by
      by_contra hc; exact hbad (Or.inr hc)
    subst hQ
    have hQ30 : Q ≤ 30 := by
      by_contra hc
      have := two_pow_lt_int 30 Q (by omega)
      omega
    have hQ1 : 1 ≤ Q := by
      by_contra hc
      have : Q = 0 := by omega
      subst this
      norm_num at hge
    have h2Q : 2 ^ Q ≤ 2 ^ 30 := Nat.pow_le_pow_right (by omega) hQ30
    rw [int_pow_toNat] at hout
    rw [fft_recursive_eq W Q hQ1 hQ30 fuel inp out (by omega) hout,
      fft_iterative_eq W Q hQ1 hQ30 fuel inp out (by omega) hout]
    constructor <;> (intro h; cases h)

/-- A call returns, or fails an assertion with the caller's output array as it was, or uses
up its fuel. -/
theorem fft_recursive_shape (W : Int → Complex R) (fuel : Nat)
    (inp out : List (Complex R)) (length : Int) :
    (∃ res, fft_recursive W fuel inp out length = Outcome.returned res) ∨
    fft_recursive W fuel inp out length = Outcome.assertion_failed out ∨
    fft_recursive W fuel inp out length = Outcome.out_of_fuel := by
  rcases fuel with _ | fuel
  · right; right; rfl
  · rw [fft_recursive]
    repeat' (first | split | (dsimp only; split))
    all_goals simp

theorem fft_iterative_shape (W : Int → Complex R) (fuel : Nat)
    (inp out : List (Complex R)) (length : Int) :
    (∃ res, fft_iterative W fuel inp out length = Outcome.returned res) ∨
    fft_iterative W fuel inp out length = Outcome.assertion_failed out ∨
    fft_iterative W fuel inp out length = Outcome.out_of_fuel := by
  unfold fft_iterative
  repeat' (first | split | (dsimp only; split))
  all_goals simp

/-- C12: when `fft_recursive` or `fft_iterative` fails an assertion, the caller's output array
is as it was before the call: no element has been written. -/
theorem fail_fast_output_unchanged (W : Int → Complex R) (fuel : Nat)
    (inp out out' : List (Complex R)) (length : Int) :
    (fft_recursive W fuel inp out length = Outcome.assertion_failed out' → out' = out) ∧
    (fft_iterative W fuel inp out length = Outcome.assertion_failed out' → out' = out) := by
  constructor
  · intro h
    rcases fft_recursive_shape W fuel inp out length with ⟨res, hr⟩ | hr | hr
    · rw [hr] at h; cases h
    · rw [hr] at h; cases h; rfl
    · rw [hr] at h; cases h
  · intro h
    rcases fft_iterative_shape W fuel inp out length with ⟨res, hr⟩ | hr | hr
    · rw [hr] at h; cases h
    · rw [hr] at h; cases h; rfl
    · rw [hr] at h; cases h

end

/-- C12 at the length 6 over the integers: both transforms fail the assertion there, and the
array carried by the failure is the output array passed in. -/
theorem fail_fast_output_unchanged_witness :
    (fft_recursive (fun _ => (⟨-1, 0⟩ : Complex ℤ)) 5 [0, 0, 0, 0, 0, 0] [1, 2, 3, 4, 5, 6] 6
        = Outcome.assertion_failed [1, 2, 3, 4, 5, 6] ∧
      ([1, 2, 3, 4, 5, 6] : List (Complex ℤ)) = [1, 2, 3, 4, 5, 6]) ∧
    (fft_iterative (fun _ => (⟨-1, 0⟩ : Complex ℤ)) 5 [0, 0, 0, 0, 0, 0] [1, 2, 3, 4, 5, 6] 6
        = Outcome.assertion_failed [1, 2, 3, 4, 5, 6] ∧
      ([1, 2, 3, 4, 5, 6] : List (Complex ℤ)) = [1, 2, 3, 4, 5, 6]) :=
  ⟨⟨by decide,
    (fail_fast_output_unchanged (fun _ => (⟨-1, 0⟩ : Complex ℤ)) 5 [0, 0, 0, 0, 0, 0]
      [1, 2, 3, 4, 5, 6] [1, 2, 3, 4, 5, 6] 6).1 (by decide)⟩,
   ⟨by decide,
    (fail_fast_output_unchanged (fun _ => (⟨-1, 0⟩ : Complex ℤ)) 5 [0, 0, 0, 0, 0, 0]
      [1, 2, 3, 4, 5, 6] [1, 2, 3, 4, 5, 6] 6).2 (by decide)⟩⟩

/-- C13: with exact arithmetic, `z / w` aborts on its assertion and returns no value when
`w.real^2 + w.imag^2 = 0`, and returns a value, the quotient, for every other divisor. -/
theorem complex_division_by_zero {R : Type} [Field R] [DecidableEq R] (z w : Complex R) :
    (w.real * w.real + w.imag * w.imag = 0 → Complex.div z w = none) ∧
    (w.real * w.real + w.imag * w.imag ≠ 0 → ∃ v, Complex.div z w = some v ∧ v * w = z) := by
  constructor
  · intro h
    simp [Complex.div, h]
  · intro h
    refine ⟨⟨(z.real * w.real + z.imag * w.imag) / (w.real * w.real + w.imag * w.imag),
      (z.imag * w.real - z.real * w.imag) / (w.real * w.real + w.imag * w.imag)⟩,
      by simp only [Complex.div, if_neg h], ?_⟩
    ext
    · simp only [Complex.mul_real]
      field_simp
      ring
    · simp only [Complex.mul_imag]
      field_simp
      ring

/-- C13 at `z = 1 + 2i` with the divisors `0` and `3 + 4i` over the rationals. -/
theorem complex_division_by_zero_witness :
    Complex.div (⟨1, 2⟩ : Complex ℚ) ⟨0, 0⟩ = none ∧
    ∃ v, Complex.div (⟨1, 2⟩ : Complex ℚ) ⟨3, 4⟩ = some v ∧ v * ⟨3, 4⟩ = ⟨1, 2⟩ :=
  ⟨(complex_division_by_zero ⟨1, 2⟩ ⟨0, 0⟩).1 (by norm_num),
   (complex_division_by_zero ⟨1, 2⟩ ⟨3, 4⟩).2 (by norm_num)⟩

/-! ## Bit reversal: involution and high bits -/

/-- C18: for a width `0 ≤ w ≤ 32` and an index below `2^w`, reversing twice gives the index
back. -/
theorem bit_reverse_involution (index w : Nat) (hw : w ≤ 32) (hidx : index < 2 ^ w) :
    bit_reverse (bit_reverse index (w : Int)) (w : Int) = index := by
  rw [bit_reverse_eq_brev _ _ hw, bit_reverse_eq_brev _ _ hw]
  exact brev_brev w index hidx

/-- C18 at `index = 3`, `w = 3`. -/
theorem bit_reverse_involution_witness :
    bit_reverse (bit_reverse 3 ((3 : Nat) : Int)) ((3 : Nat) : Int) = 3 :=
  bit_reverse_involution 3 3 (by decide) (by decide)

theorem brev_mod (w x : Nat) : brev w (x % 2 ^ w) = brev w x := by
  apply Nat.eq_of_testBit_eq
  intro i
  rw [testBit_brev, testBit_brev]
  by_cases h : i < w
  · rw [if_pos h, if_pos h, Nat.testBit_mod_two_pow]
    have : w - 1 - i < w := by omega
    simp [this]
  · rw [if_neg h, if_neg h]

/-- C19: for an unsigned 32-bit index and a width `0 ≤ w ≤ 32`, `bit_reverse(index, w)` is
`bit_reverse(index mod 2^w, w)` and is below `2^w`; for every width `≤ 0` the result is 0. -/
theorem bit_reverse_ignores_high_bits (index : Nat) (width : Int) (hidx : index < 2 ^ 32)
    (h0 : 0 ≤ width) (h32 : width ≤ 32) :
    bit_reverse index width = bit_reverse (index % 2 ^ width.toNat) width ∧
    bit_reverse index width < 2 ^ width.toNat ∧
    ∀ w : Int, w ≤ 0 → bit_reverse index w = 0 := by
  have _ := hidx
  obtain ⟨w, rfl⟩ : ∃ w : Nat, width = w := ⟨width.toNat, by omega⟩
  have hw : w ≤ 32 := by omega
  rw [Int.toNat_natCast]
  refine ⟨?_, ?_, fun v hv => ?_⟩
  · rw [bit_reverse_eq_brev _ _ hw, bit_reverse_eq_brev _ _ hw, brev_mod]
  · rw [bit_reverse_eq_brev _ _ hw]
    exact brev_lt w index
  · have : v.toNat = 0 := by omega
    rw [bit_reverse_eq, this]
    rfl

/-- C19 at `index = 2^32 - 1`, `width = 3`. -/
theorem bit_reverse_ignores_high_bits_witness :
    bit_reverse 4294967295 3 = bit_reverse (4294967295 % 2 ^ (3 : Int).toNat) 3 ∧
    bit_reverse 4294967295 3 < 2 ^ (3 : Int).toNat ∧
    ∀ w : Int, w ≤ 0 → bit_reverse 4294967295 w = 0 :=
  bit_reverse_ignores_high_bits 4294967295 3 (by decide) (by decide) (by decide)

/-! ## The even/odd recursion and bit reversal -/

theorem decimation_split_spec {α : Type} (d : α) (inp : List α) (half : Nat) :
    (decimation_split d inp half).1.length = half ∧
    (decimation_split d inp half).2.length = half ∧
    ∀ i, i < half →
      (decimation_split d inp half).1.getD i d = inp.getD (i * 2) d ∧
      (decimation_split d inp half).2.getD i d = inp.getD (i * 2 + 1) d := by
  unfold decimation_split
  rw [pair_fill_loop]
  have h1 := fill_loop d (fun i => inp.getD (i * 2) d) half (List.replicate half d) (by simp)
  have h2 := fill_loop d (fun i => inp.getD (i * 2 + 1) d) half (List.replicate half d)
    (by simp)
  refine ⟨by rw [h1.1]; simp, by rw [h2.1]; simp, fun i hi => ⟨?_, ?_⟩⟩
  · show (for_loop 0 half (fun i (a : List α) => a.set i (inp.getD (i * 2) d)) _).getD i d = _
    rw [h1.2, if_pos hi]
  · show (for_loop 0 half (fun i (a : List α) => a.set i (inp.getD (i * 2 + 1) d)) _).getD i d
      = _
    rw [h2.2, if_pos hi]

/-- Bit reversal peeled at the top bit of the index. -/
theorem brev_top (q : Nat) : ∀ i, i < 2 ^ q →
    brev (q + 1) i = brev q i * 2 ∧ brev (q + 1) (i + 2 ^ q) = brev q i * 2 + 1 := by
  induction q with
  | zero =>
    intro i hi
    have : i = 0 := by simpa using hi
    subst this
    simp [brev]
  | succ q ih =>
    intro i hi
    have hi2 : i / 2 < 2 ^ q := by rw [pow_succ] at hi; omega
    obtain ⟨h1, h2⟩ := ih (i / 2) hi2
    constructor
    · rw [brev, h1]
      conv_rhs => rw [brev]
      rw [pow_succ]; ring
    · have e1 : (i + 2 ^ (q + 1)) % 2 = i % 2 := by rw [pow_succ]; omega
      have e2 : (i + 2 ^ (q + 1)) / 2 = i / 2 + 2 ^ q := by rw [pow_succ]; omega
      rw [brev, e1, e2, h2]
      conv_rhs => rw [brev]
      rw [pow_succ]; ring

theorem decimation_order_spec {α : Type} (d : α) (q : Nat) : ∀ inp : List α,
    inp.length = 2 ^ q →
      (decimation_order d q inp).length = 2 ^ q ∧
      ∀ i, i < 2 ^ q → (decimation_order d q inp).getD i d = inp.getD (brev q i) d := by
  induction q with
  | zero =>
    intro inp h
    refine ⟨h, fun i hi => ?_⟩
    have : i = 0 := by simpa using hi
    subst this
    rfl
  | succ q ih =>
    intro inp _
    obtain ⟨hl1, hl2, hv⟩ := decimation_split_spec d inp (2 ^ q)
    obtain ⟨hA, hAv⟩ := ih _ hl1
    obtain ⟨hB, hBv⟩ := ih _ hl2
    have e2 : 2 ^ (q + 1) = 2 ^ q + 2 ^ q := by rw [pow_succ]; omega
    rw [decimation_order]
    refine ⟨by rw [List.length_append, hA, hB, e2], fun i hi => ?_⟩
    by_cases h1 : i < 2 ^ q
    · rw [List.getD_append _ _ _ _ (by rw [hA]; exact h1), hAv i h1,
        (hv _ (brev_lt q i)).1, (brev_top q i h1).1]
    · have h2 : i - 2 ^ q < 2 ^ q := by omega
      rw [List.getD_append_right _ _ _ _ (by rw [hA]; omega), hA, hBv _ h2,
        (hv _ (brev_lt q _)).2, ← (brev_top q _ h2).2, Nat.sub_add_cancel (by omega)]

theorem getD_range (n i : Nat) (h : i < n) : (List.range n).getD i 0 = i := by
  rw [List.getD_eq_getElem _ _ (by simpa using h)]
  simp

section
variable {R : Type} [CommRing R]

/-- On a validated length `2^(Q+1) > 2` the nested calls of `fft_recursive` run on the two
halves of `decimation_split`. -/
theorem fft_recursive_split (W : Int → Complex R) (Q : Nat) (hQ1 : 1 ≤ Q) (hQ : Q + 1 ≤ 30)
    (fuel : Nat) (hf : Q < fuel) (inp out : List (Complex R)) :
    fft_recursive W (fuel + 1) inp out ((2 : Int) ^ (Q + 1)) =
      match fft_recursive W fuel (decimation_split 0 inp (2 ^ Q)).1
          (List.replicate (2 ^ Q) 0) ((2 : Int) ^ Q) with
      | Outcome.out_of_fuel => Outcome.out_of_fuel
      | Outcome.assertion_failed _ => Outcome.assertion_failed out
      | Outcome.returned G =>
        match fft_recursive W fuel (decimation_split 0 inp (2 ^ Q)).2
            (List.replicate (2 ^ Q) 0) ((2 : Int) ^ Q) with
        | Outcome.out_of_fuel => Outcome.out_of_fuel
        | Outcome.assertion_failed _ => Outcome.assertion_failed out
        | Outcome.returned H =>
          Outcome.returned (for_loop 0 (2 ^ Q) (fun i out =>
            let temp :=
              (WNk_recursive (W ((2 : Int) ^ (Q + 1))) ((2 : Int) ^ (Q + 1))).getD i 0
                * H.getD i 0
            let out := out.set i (G.getD i 0 + temp)
            out.set (2 ^ Q + i) (G.getD i 0 - temp)) out) := by
  have hlt : (2 : Int) ^ 1 < 2 ^ (Q + 1) := two_pow_lt_int 1 (Q + 1) (by omega)
  have hne : ¬ ((2 : Int) ^ (Q + 1) = 2) := by omega
  have hgt : ¬ ¬ ((2 : Int) ^ (Q + 1) > 2) := by omega
  have hloop := length_loop_valid (Q + 1) hQ (fuel + 1) (by omega)
  rw [fft_recursive, if_neg hne, if_neg hgt, hloop]
  simp only [not_true_eq_false, if_false, int_pow_succ_div, int_pow_toNat]
  rfl

/-- C15: for `N = 2^Q` (`N` an `int`) the even/odd splitting of `fft_recursive`, carried down
to single entries, reaches the indices `0, .., N-1` in the order `i ↦ bit_reverse(i, Q)`, and
reaches the entries of an input of length `N` in the order of the working buffer
`X[i] = in[bit_reverse(i, Q)]` of `fft_iterative`. -/
theorem decimation_is_bit_reversal (Q : Nat) (hint : (2 : Int) ^ Q ≤ INT_MAX) :
    (∀ i, i < 2 ^ Q →
      (decimation_order 0 Q (List.range (2 ^ Q))).getD i 0 = bit_reverse i (Q : Int)) ∧
    ∀ inp : List (Complex R), inp.length = 2 ^ Q →
      decimation_order 0 Q inp = bit_reversed_copy inp ((2 : Int) ^ Q) (Q : Int) := by
  have hQ := int_max_log Q hint
  constructor
  · intro i hi
    rw [(decimation_order_spec 0 Q _ (by simp)).2 i hi, getD_range _ _ (brev_lt Q i),
      bit_reverse_eq_brev _ _ (by omega)]
  · intro inp hin
    obtain ⟨hl, hv⟩ := decimation_order_spec (0 : Complex R) Q inp hin
    obtain ⟨hl', hv'⟩ := bit_reversed_copy_spec inp Q (by omega)
    apply list_ext_getD (0 : Complex R)
    · rw [hl, hl']
    · intro i hi
      rw [hl] at hi
      rw [hv i hi, hv' i hi]

end

/-- C15 at `N = 8`. -/
theorem decimation_is_bit_reversal_witness :
    (∀ i, i < 2 ^ 3 →
      (decimation_order 0 3 (List.range (2 ^ 3))).getD i 0 = bit_reverse i ((3 : Nat) : Int)) ∧
    ∀ inp : List (Complex ℤ), inp.length = 2 ^ 3 →
      decimation_order 0 3 inp = bit_reversed_copy inp ((2 : Int) ^ 3) ((3 : Nat) : Int) :=
  decimation_is_bit_reversal 3 (by decide)

theorem decimation_order_example_eight :
    decimation_order 0 3 (List.range 8) = [0, 4, 2, 6, 1, 5, 3, 7] := by
  decide

/-! ## The stage invariant on `Y` -/

section
variable {R : Type} [CommRing R]

/-- After its validation `fft_iterative` runs all `Q` passes of `stages_upto`. -/
theorem fft_iterative_stages (W : Int → Complex R) (fuel : Nat) (inp out : List (Complex R))
    (length : Int) :
    fft_iterative W fuel inp out length =
      if ¬ (length ≥ 2) then Outcome.assertion_failed out
      else
        match length_loop length fuel 1 0 with
        | none => Outcome.out_of_fuel
        | some (N, Q) =>
          if ¬ (N = length) then Outcome.assertion_failed out
          else
            match stages_upto W fuel inp out N Q Q.toNat with
            | none => Outcome.out_of_fuel
            | some s => Outcome.returned s.out :=
  rfl

/-- The buffer `Y` that a stage leaves holds the blocks of the next level. -/
theorem stage_body_Y (WN : Complex R) (inp out0 WNk : List (Complex R)) (Q q fuel : Nat)
    (hq : q < Q) (hf : 2 ^ Q ≤ fuel)
    (hW : ∀ j, j < 2 ^ (Q - 1) → WNk.getD j 0 = WN ^ j)
    (st : Stage R) (hst : StageInv WN inp out0 Q q st) :
    ∀ st', stage_body WNk (2 ^ Q) Q fuel q st = some st' →
      Blocks (fun l => WN ^ 2 ^ (Q - l)) inp Q (q + 1) st'.Y := by
  obtain ⟨hp, hk, hm, hXl, hYl, hlt, -⟩ := hst
  obtain ⟨hout, hX⟩ := hlt hq
  have hm' : st.m = 2 ^ (Q - 1 - q) := by
    rw [hm, Nat.pow_div (by omega) (by omega)]
  have hB : 2 ^ Q = 2 ^ (Q - (q + 1)) * (st.p * 2) := by
    rw [hp, ← pow_succ, ← pow_add]; congr 1; omega
  have hfuel : 2 ^ (Q - (q + 1)) < fuel := by
    have : 2 ^ (Q - (q + 1)) < 2 ^ Q := Nat.pow_lt_pow_right (by omega) (by omega)
    omega
  obtain ⟨Y', hrun, hlen, -, hblk⟩ := butterfly_pass WNk st.X (2 ^ Q) (st.p * 2) st.k st.m
    (2 ^ (Q - (q + 1))) (by rw [hp, hk]; omega) (by rw [hk]; positivity) hB
    (2 ^ (Q - (q + 1))) 0 fuel st.Y (by omega) hfuel hYl
  rw [Nat.zero_mul] at hrun
  have hY' : Blocks (fun l => WN ^ 2 ^ (Q - l)) inp Q (q + 1) Y' := by
    apply blocks_step WN inp WNk st.X Y' Q q hq hW hX
    intro c j hc hj
    have := hblk c j (Nat.zero_le _) hc (by rw [hk]; exact hj)
    rw [hp, hk, hm', ← pow_succ] at this
    exact this
  intro st' h
  simp only [stage_body, hrun] at h
  split_ifs at h <;> (cases h; exact hY')

theorem WNk_iterative_spec (WN : Complex R) (P : Nat) :
    ∀ j, j < 2 ^ (P + 1 - 1) → (WNk_iterative WN ((2 : Int) ^ (P + 1))).getD j 0 = WN ^ j := by
  intro j hj
  have hT := twiddle_loop WN (2 ^ P) Nat.one_le_two_pow
  unfold WNk_iterative
  simp only [int_pow_succ_div, int_pow_toNat]
  exact hT.2 j hj

/-- The state with which the stage loop of `fft_iterative` starts satisfies the invariant. -/
theorem stage_init_inv (W : Int → Complex R) (P : Nat) (hP : P + 1 ≤ 32)
    (inp out : List (Complex R)) :
    StageInv (W ((2 : Int) ^ (P + 1))) inp out (P + 1) 0
      ⟨1, 1, 2 ^ P, bit_reversed_copy inp ((2 : Int) ^ (P + 1)) ((P + 1 : Nat) : Int),
        List.replicate (2 ^ (P + 1)) 0, out⟩ := by
  have hXs := bit_reversed_copy_spec inp (P + 1) hP
  refine ⟨rfl, rfl, by simp, hXs.1, by simp, fun _ => ⟨rfl, ?_⟩, fun h => by omega⟩
  intro b t hb ht
  have ht0 : t = 0 := by simpa using ht
  subst ht0
  simp only [dit, pow_zero, Nat.mul_one, Nat.add_zero, Nat.sub_zero, Nat.zero_mul]
  exact hXs.2 b hb

/-- On a validated length `2^Q` every prefix of the stage loop returns a state that satisfies
the invariant. -/
theorem stages_upto_inv (W : Int → Complex R) (Q : Nat) (hQ1 : 1 ≤ Q) (hQ : Q ≤ 30)
    (fuel : Nat) (inp out : List (Complex R)) (hf : 2 ^ Q ≤ fuel) (ho : 2 ^ Q ≤ out.length)
    (c : Nat) (hc : c ≤ Q) :
    ∃ st, stages_upto W fuel inp out ((2 : Int) ^ Q) (Q : Int) c = some st ∧
      StageInv (W ((2 : Int) ^ Q)) inp out Q c st := by
  obtain ⟨P, rfl⟩ : ∃ P, Q = P + 1 := ⟨Q - 1, by omega⟩
  have h := stage_loop_inv (W ((2 : Int) ^ (P + 1))) inp out _ (P + 1) fuel hf ho
    (WNk_iterative_spec _ P) _ (stage_init_inv W P (by omega) inp out) c hc
  unfold stages_upto
  simp only [int_pow_succ_div, int_pow_toNat, Int.toNat_natCast]
  exact h

theorem stages_upto_succ (W : Int → Complex R) (fuel : Nat) (inp out : List (Complex R))
    (N Q : Int) (c : Nat) :
    stages_upto W fuel inp out N Q (c + 1) =
      (stages_upto W fuel inp out N Q c).bind
        (stage_body (WNk_iterative (W N) N) N.toNat Q.toNat fuel c) := by
  unfold stages_upto
  simp only []
  rw [for_loop_succ _ _ _ _ (Nat.zero_le _)]

end

/-- With `x^(2^(Q-1)) = -1`, level `l` of the recursion with the bases `x^(2^(Q-l))` is the
`2^l`-point DFT with base `x^(2^(Q-l))`. -/
theorem dit_level_dft {K : Type} [CommRing K] (x : K) (Q : Nat)
    (hx : x ^ 2 ^ (Q - 1) = -1) (l : Nat) (hl : l ≤ Q) (u : Nat → K) (t : Nat)
    (ht : t < 2 ^ l) :
    dit (fun l => x ^ 2 ^ (Q - l)) l u t
      = ∑ s in Finset.range (2 ^ l), u s * (x ^ 2 ^ (Q - l)) ^ (s * t) := by
  apply dit_eq_dft (fun l => x ^ 2 ^ (Q - l)) Q ?_ ?_ l hl _ (fun _ => rfl) u t ht
  · intro q h1 h2
    show (x ^ 2 ^ (Q - q)) ^ 2 ^ (q - 1) = -1
    rw [← pow_mul, ← pow_add]
    have e : Q - q + (q - 1) = Q - 1 := by omega
    rw [e, hx]
  · intro q h1 h2
    show x ^ 2 ^ (Q - q) = (x ^ 2 ^ (Q - (q + 1))) ^ 2
    rw [← pow_mul, ← pow_succ]
    congr 2; omega

/-- C14: for `N = 2^Q` (`Q ≥ 1`, `N` an `int`), `WN` a primitive `N`-th root of unity and a
stage `q < Q`: the stage runs with `p = 2^(q+1)`, `k = 2^q`, `m = (N/2)/2^q = N/p`, and after
it every block `Y[b*p .. b*p+p)`, `b < N/p`, holds the `p`-point DFT with root `WN^m` of the
subsequence `s ↦ in[bit_reverse(b, Q-q-1) + s*(N/p)]`; after the last stage `Y` holds the
`N`-point DFT of the input. -/
theorem stage_invariant_dft {R : Type} [LinearOrderedField R] (W : Int → Complex R)
    (Q : Nat) (hQ1 : 1 ≤ Q) (hint : (2 : Int) ^ Q ≤ INT_MAX)
    (hprim : IsPrimitiveRoot (W ((2 : Int) ^ Q)) (2 ^ Q))
    (inp out : List (Complex R)) (hin : inp.length = 2 ^ Q) (hout : out.length = 2 ^ Q)
    (fuel : Nat) (hf : 2 ^ Q ≤ fuel) (q : Nat) (hq : q < Q) :
    ∃ st0 st1,
      stages_upto W fuel inp out ((2 : Int) ^ Q) (Q : Int) q = some st0 ∧
      stages_upto W fuel inp out ((2 : Int) ^ Q) (Q : Int) (q + 1) = some st1 ∧
      st0.p * 2 = 2 ^ (q + 1) ∧ st0.k = 2 ^ q ∧ st0.m = 2 ^ Q / 2 / 2 ^ q ∧
      st0.m = 2 ^ Q / (st0.p * 2) ∧
      (∀ b t, b < 2 ^ Q / 2 ^ (q + 1) → t < 2 ^ (q + 1) →
        st1.Y.getD (b * 2 ^ (q + 1) + t) 0
          = ∑ s in Finset.range (2 ^ (q + 1)),
              inp.getD (bit_reverse b ((Q - q - 1 : Nat) : Int) + s * (2 ^ Q / 2 ^ (q + 1))) 0
                * (W ((2 : Int) ^ Q) ^ (2 ^ Q / 2 ^ (q + 1))) ^ (s * t)) ∧
      (q + 1 = Q → ∀ t, t < 2 ^ Q →
        st1.Y.getD t 0
          = ∑ n in Finset.range (2 ^ Q), inp.getD n 0 * W ((2 : Int) ^ Q) ^ (n * t)) := by
  have _ := hin
  have hQ := int_max_log Q hint
  have hx := primitive_root_half _ Q hQ1 hprim
  obtain ⟨st0, hrun0, hinv0⟩ := stages_upto_inv W Q hQ1 hQ fuel inp out hf (by omega) q
    (by omega)
  obtain ⟨st1, hrun1, hinv1⟩ := stages_upto_inv W Q hQ1 hQ fuel inp out hf (by omega)
    (q + 1) (by omega)
  have hstep : stage_body (WNk_iterative (W ((2 : Int) ^ Q)) ((2 : Int) ^ Q)) (2 ^ Q) Q fuel q
      st0 = some st1 := by
    have := stages_upto_succ W fuel inp out ((2 : Int) ^ Q) (Q : Int) q
    rw [hrun0, hrun1, int_pow_toNat, Int.toNat_natCast] at this
    exact this.symm
  have hW : ∀ j, j < 2 ^ (Q - 1) →
      (WNk_iterative (W ((2 : Int) ^ Q)) ((2 : Int) ^ Q)).getD j 0 = W ((2 : Int) ^ Q) ^ j := by
    obtain ⟨P, rfl⟩ : ∃ P, Q = P + 1 := ⟨Q - 1, by omega⟩
    exact WNk_iterative_spec _ P
  have hY := stage_body_Y (W ((2 : Int) ^ Q)) inp out _ Q q fuel hq hf hW st0 hinv0 st1 hstep
  obtain ⟨hp, hk, hm, -, -, -, -⟩ := hinv0
  have hdiv : 2 ^ Q / 2 ^ (q + 1) = 2 ^ (Q - (q + 1)) := Nat.pow_div (by omega) (by omega)
  have hhalf : 2 ^ Q / 2 = 2 ^ (Q - 1) := by
    have := Nat.pow_div (show 1 ≤ Q by omega) (show 0 < 2 by omega)
    simpa using this
  have hblocks : ∀ b t, b < 2 ^ Q / 2 ^ (q + 1) → t < 2 ^ (q + 1) →
      st1.Y.getD (b * 2 ^ (q + 1) + t) 0
        = ∑ s in Finset.range (2 ^ (q + 1)),
            inp.getD (bit_reverse b ((Q - q - 1 : Nat) : Int) + s * (2 ^ Q / 2 ^ (q + 1))) 0
              * (W ((2 : Int) ^ Q) ^ (2 ^ Q / 2 ^ (q + 1))) ^ (s * t) := by
    intro b t hb ht
    rw [hdiv] at hb ⊢
    rw [hY b t hb ht, dit_level_dft _ Q hx (q + 1) (by omega) _ t ht,
      bit_reverse_eq_brev _ _ (by omega)]
    have e : Q - q - 1 = Q - (q + 1) := by omega
    rw [e]
  refine ⟨st0, st1, hrun0, hrun1, by rw [hp, pow_succ], hk, by rw [hm, hhalf], ?_, hblocks, ?_⟩
  · rw [hm, hp, ← pow_succ, hdiv, Nat.pow_div (by omega) (by omega)]
    congr 1; omega
  · intro hlast t ht
    have h := hblocks 0 t (by rw [hdiv]; positivity) (by rw [hlast]; exact ht)
    have e0 : Q - q - 1 = 0 := by omega
    have e1 : 2 ^ Q / 2 ^ (q + 1) = 1 := by rw [hlast]; exact Nat.div_self (by positivity)
    rw [e0, e1, hlast] at h
    have hb0 : bit_reverse 0 (0 : Int) = 0 := by decide
    simpa [hb0] using h

/-- C14 at `N = 4`, stage `q = 1`, over the rationals with the exact base `-i`. -/
theorem stage_invariant_dft_witness :
    ∃ st0 st1 : Stage ℚ,
      stages_upto twiddle4 4 [⟨1, 0⟩, ⟨2, 0⟩, ⟨3, 0⟩, ⟨4, 1⟩] [0, 0, 0, 0]
        ((2 : Int) ^ 2) ((2 : Nat) : Int) 1 = some st0 ∧
      stages_upto twiddle4 4 [⟨1, 0⟩, ⟨2, 0⟩, ⟨3, 0⟩, ⟨4, 1⟩] [0, 0, 0, 0]
        ((2 : Int) ^ 2) ((2 : Nat) : Int) (1 + 1) = some st1 ∧
      st0.p * 2 = 2 ^ (1 + 1) ∧ st0.k = 2 ^ 1 ∧ st0.m = 2 ^ 2 / 2 / 2 ^ 1 ∧
      st0.m = 2 ^ 2 / (st0.p * 2) ∧
      (∀ b t, b < 2 ^ 2 / 2 ^ (1 + 1) → t < 2 ^ (1 + 1) →
        st1.Y.getD (b * 2 ^ (1 + 1) + t) 0
          = ∑ s in Finset.range (2 ^ (1 + 1)),
              List.getD [⟨1, 0⟩, ⟨2, 0⟩, ⟨3, 0⟩, ⟨4, 1⟩]
                  (bit_reverse b ((2 - 1 - 1 : Nat) : Int) + s * (2 ^ 2 / 2 ^ (1 + 1))) 0
                * (twiddle4 ((2 : Int) ^ 2) ^ (2 ^ 2 / 2 ^ (1 + 1))) ^ (s * t)) ∧
      (1 + 1 = 2 → ∀ t, t < 2 ^ 2 →
        st1.Y.getD t 0
          = ∑ n in Finset.range (2 ^ 2),
              List.getD [⟨1, 0⟩, ⟨2, 0⟩, ⟨3, 0⟩, ⟨4, 1⟩] n 0 * twiddle4 ((2 : Int) ^ 2) ^ (n * t)) :=
  stage_invariant_dft twiddle4 2 (by decide) (by decide) twiddle4_primitive
    [⟨1, 0⟩, ⟨2, 0⟩, ⟨3, 0⟩, ⟨4, 1⟩] [0, 0, 0, 0] rfl rfl 4 (by decide) 1 (by decide)

/-! ## Index safety of the butterfly loops -/

theorem append_loop {β : Type} (f : Nat → List β) (lo hi : Nat) (tr : List β) :
    for_loop lo hi (fun i tr => tr ++ f i) tr = tr ++ (List.range' lo (hi - lo)).flatMap f := by
  unfold for_loop
  generalize List.range' lo (hi - lo) = l
  induction l generalizing tr with
  | nil => simp
  | cons a l ih => simp [ih]

theorem append_step_loop {β : Type} (g : Nat → List β) (N p B : Nat) (hp : 0 < p)
    (hN : N = B * p) :
    ∀ (d c fuel : Nat) (tr : List β), c + d = B → d < fuel →
      for_step_loop N p (fun i tr => tr ++ g i) fuel (c * p) tr
        = some (tr ++ (List.range' c d).flatMap (fun b => g (b * p))) := by
  intro d
  induction d with
  | zero =>
    intro c fuel tr hc hf
    obtain ⟨fuel, rfl⟩ : ∃ f, fuel = f + 1 := ⟨fuel - 1, by omega⟩
    have : c = B := by omega
    subst this
    rw [for_step_loop, if_neg (by omega)]
    simp
  | succ d ih =>
    intro c fuel tr hc hf
    obtain ⟨fuel, rfl⟩ : ∃ f, fuel = f + 1 := ⟨fuel - 1, by omega⟩
    have hlt : c * p < N := by
      rw [hN]; exact Nat.mul_lt_mul_of_pos_right (by omega) hp
    have e : c * p + p = (c + 1) * p := by rw [Nat.add_mul, Nat.one_mul]
    rw [for_step_loop, if_pos hlt, e, ih (c + 1) fuel _ (by omega) (by omega)]
    simp [List.range'_succ, List.append_assoc]

theorem indices_of_flatMap {γ : Type} (a : Arr) (l : List γ) (f : γ → List (Arr × Nat)) :
    indices_of a (l.flatMap f) = l.flatMap (fun x => indices_of a (f x)) := by
  unfold indices_of
  induction l with
  | nil => simp
  | cons x l ih => simp [ih]

theorem flatMap_range_blocks (p B : Nat) :
    (List.range B).flatMap (fun b => List.range' (b * p) p) = List.range (B * p) := by
  induction B with
  | zero => simp
  | succ B ih =>
    rw [List.range_succ, List.flatMap_append, ih, List.flatMap_singleton,
      List.range_eq_range', List.range_eq_range']
    have := List.range'_append 0 (B * p) p 1
    simp only [Nat.zero_add, Nat.one_mul] at this
    rw [this]
    congr 1
    rw [Nat.add_mul, Nat.one_mul, Nat.add_comm]

theorem pairs_perm_block (i k : Nat) :
    List.Perm ((List.range k).flatMap (fun j => [i + j, i + j + k]))
      (List.range' i (2 * k)) := by
  have h1 : (List.range k).flatMap (fun j => [i + j]) = List.range' i k := by
    rw [List.range'_eq_map_range]
    induction (List.range k) with
    | nil => rfl
    | cons a l ih => simp [ih]
  have h2 : (List.range k).flatMap (fun j => [i + j + k]) = List.range' (i + k) k := by
    rw [List.range'_eq_map_range]
    induction (List.range k) with
    | nil => rfl
    | cons a l ih => simp [ih]; omega
  have h3 := List.flatMap_append_perm (List.range k) (fun j => [i + j]) (fun j => [i + j + k])
  rw [h1, h2] at h3
  have h4 := List.range'_append i k k 1
  simp only [Nat.one_mul] at h4
  rw [h4] at h3
  have e : k + k = 2 * k := by omega
  rw [e] at h3
  exact h3.symm

/-- The trace of a stage with `p = 2*k` and `N = B*p`. -/
theorem butterfly_accesses_eq (N p k m B fuel : Nat) (hk : 0 < k) (hp : p = 2 * k)
    (hN : N = B * p) (hf : B < fuel) :
    butterfly_accesses N p k m fuel = some ((List.range B).flatMap (fun b =>
      (List.range k).flatMap (fun j =>
        [(Arr.X, b * p + j + k), (Arr.WNk, j * m), (Arr.X, b * p + j), (Arr.Y, b * p + j),
          (Arr.X, b * p + j), (Arr.Y, b * p + j + k)]))) := by
  unfold butterfly_accesses
  have hbody : (fun (i : Nat) (tr : List (Arr × Nat)) =>
      for_loop 0 k (fun j tr =>
        let n := i + j
        tr ++ [(Arr.X, n + k), (Arr.WNk, j * m), (Arr.X, n), (Arr.Y, n), (Arr.X, n),
          (Arr.Y, n + k)]) tr)
      = (fun i tr => tr ++ (List.range k).flatMap (fun j =>
        [(Arr.X, i + j + k), (Arr.WNk, j * m), (Arr.X, i + j), (Arr.Y, i + j),
          (Arr.X, i + j), (Arr.Y, i + j + k)])) := by
    funext i tr
    rw [append_loop, Nat.sub_zero, ← List.range_eq_range']
  rw [hbody]
  have h := append_step_loop (fun i => (List.range k).flatMap (fun j =>
      [(Arr.X, i + j + k), (Arr.WNk, j * m), (Arr.X, i + j), (Arr.Y, i + j),
        (Arr.X, i + j), (Arr.Y, i + j + k)])) N p B (by omega) hN B 0 fuel [] (by omega) hf
  rw [Nat.zero_mul] at h
  rw [h, List.nil_append, ← List.range_eq_range']

/-- C16: for `N = 2^Q` (`Q ≥ 1`, `N` an `int`) and a stage `q < Q` of `fft_iterative`, run with
the loop variables of that stage: every index into `X` and `Y` is below `N`, every index into
`WNk` is below `N/2`, these are the sizes of the arrays, and the indices `n`, `n+k` at which
`Y` is written are a rearrangement of `0, .., N-1`, so each cell of `Y` is written once. -/
theorem butterfly_indexing_safe {R : Type} [CommRing R] (W : Int → Complex R) (Q : Nat)
    (hQ1 : 1 ≤ Q) (hint : (2 : Int) ^ Q ≤ INT_MAX) (inp out : List (Complex R))
    (hin : inp.length = 2 ^ Q) (hout : out.length = 2 ^ Q) (fuel : Nat) (hf : 2 ^ Q ≤ fuel)
    (q : Nat) (hq : q < Q) :
    ∃ st tr,
      stages_upto W fuel inp out ((2 : Int) ^ Q) (Q : Int) q = some st ∧
      butterfly_accesses (2 ^ Q) (st.p * 2) st.k st.m fuel = some tr ∧
      (∀ e, e ∈ tr → e.2 < iterative_size (2 ^ Q) e.1) ∧
      st.X.length = iterative_size (2 ^ Q) Arr.X ∧
      st.Y.length = iterative_size (2 ^ Q) Arr.Y ∧
      (WNk_iterative (W ((2 : Int) ^ Q)) ((2 : Int) ^ Q)).length
        = iterative_size (2 ^ Q) Arr.WNk ∧
      List.Perm (indices_of Arr.Y tr) (List.range (2 ^ Q)) := by
  have _ := hin
  have hQ := int_max_log Q hint
  obtain ⟨st, hrun, hinv⟩ := stages_upto_inv W Q hQ1 hQ fuel inp out hf (by omega) q
    (by omega)
  obtain ⟨hp, hk, hm, hXl, hYl, -, -⟩ := hinv
  have hm' : st.m = 2 ^ (Q - 1 - q) := by
    rw [hm, Nat.pow_div (by omega) (by omega)]
  have hB : 2 ^ Q = 2 ^ (Q - (q + 1)) * (st.p * 2) := by
    rw [hp, ← pow_succ, ← pow_add]; congr 1; omega
  have hBlt : 2 ^ (Q - (q + 1)) < fuel := by
    have : 2 ^ (Q - (q + 1)) < 2 ^ Q := Nat.pow_lt_pow_right (by omega) (by omega)
    omega
  have hkpos : 0 < st.k := by rw [hk]; positivity
  have hpk : st.p * 2 = 2 * st.k := by rw [hp, hk]; omega
  have htr := butterfly_accesses_eq (2 ^ Q) (st.p * 2) st.k st.m (2 ^ (Q - (q + 1))) fuel
    hkpos hpk hB hBlt
  have hhalf : 2 ^ Q / 2 = st.k * st.m := by
    rw [hk, hm', ← pow_add]
    have := Nat.pow_div (show 1 ≤ Q by omega) (show 0 < 2 by omega)
    rw [pow_one] at this
    rw [this]; congr 1; omega
  have hWl : (WNk_iterative (W ((2 : Int) ^ Q)) ((2 : Int) ^ Q)).length = 2 ^ Q / 2 := by
    obtain ⟨P, rfl⟩ : ∃ P, Q = P + 1 := ⟨Q - 1, by omega⟩
    have hT := twiddle_loop (W ((2 : Int) ^ (P + 1))) (2 ^ P) Nat.one_le_two_pow
    unfold WNk_iterative
    simp only [int_pow_succ_div, int_pow_toNat]
    rw [hT.1, pow_succ]; omega
  refine ⟨st, _, hrun, htr, ?_, hXl, hYl, hWl, ?_⟩
  · intro e he
    simp only [List.mem_flatMap, List.mem_range] at he
    obtain ⟨b, hb, j, hj, he⟩ := he
    have hblock : b * (st.p * 2) + (st.p * 2) ≤ 2 ^ Q := by
      have : (b + 1) * (st.p * 2) ≤ 2 ^ (Q - (q + 1)) * (st.p * 2) :=
        Nat.mul_le_mul_right _ (by omega)
      rw [Nat.add_mul, Nat.one_mul] at this
      omega
    have hjm : j * st.m < 2 ^ Q / 2 := by
      rw [hhalf]
      exact Nat.mul_lt_mul_of_pos_right hj (by rw [hm']; positivity)
    simp only [List.mem_cons, List.mem_singleton, List.not_mem_nil, or_false] at he
    rcases he with rfl | rfl | rfl | rfl | rfl | rfl <;>
      simp only [iterative_size] <;> omega
  · rw [indices_of_flatMap]
    have hblk : ∀ b, b ∈ List.range (2 ^ (Q - (q + 1))) →
        List.Perm (indices_of Arr.Y ((List.range st.k).flatMap (fun j =>
          [(Arr.X, b * (st.p * 2) + j + st.k), (Arr.WNk, j * st.m),
            (Arr.X, b * (st.p * 2) + j), (Arr.Y, b * (st.p * 2) + j),
            (Arr.X, b * (st.p * 2) + j), (Arr.Y, b * (st.p * 2) + j + st.k)])))
          (List.range' (b * (st.p * 2)) (st.p * 2)) := by
      intro b _
      rw [indices_of_flatMap]
      have : (fun j => indices_of Arr.Y
          [(Arr.X, b * (st.p * 2) + j + st.k), (Arr.WNk, j * st.m),
            (Arr.X, b * (st.p * 2) + j), (Arr.Y, b * (st.p * 2) + j),
            (Arr.X, b * (st.p * 2) + j), (Arr.Y, b * (st.p * 2) + j + st.k)])
          = (fun j => [b * (st.p * 2) + j, b * (st.p * 2) + j + st.k]) := by
        funext j
        simp [indices_of]
      rw [this, hpk]
      exact pairs_perm_block _ _
    have h1 := List.Perm.flatMap_left (List.range (2 ^ (Q - (q + 1)))) hblk
    rw [flatMap_range_blocks, ← hB] at h1
    exact h1

/-- C16 at `N = 4`, stage `q = 1`, over the integers. -/
theorem butterfly_indexing_safe_witness :
    ∃ (st : Stage ℤ) (tr : List (Arr × Nat)),
      stages_upto (fun _ => (⟨-1, 0⟩ : Complex ℤ)) 4 [⟨1, 0⟩, ⟨2, 0⟩, ⟨3, 0⟩, ⟨4, 1⟩]
        [0, 0, 0, 0] ((2 : Int) ^ 2) ((2 : Nat) : Int) 1 = some st ∧
      butterfly_accesses (2 ^ 2) (st.p * 2) st.k st.m 4 = some tr ∧
      (∀ e, e ∈ tr → e.2 < iterative_size (2 ^ 2) e.1) ∧
      st.X.length = iterative_size (2 ^ 2) Arr.X ∧
      st.Y.length = iterative_size (2 ^ 2) Arr.Y ∧
      (WNk_iterative ((fun _ => (⟨-1, 0⟩ : Complex ℤ)) ((2 : Int) ^ 2)) ((2 : Int) ^ 2)).length
        = iterative_size (2 ^ 2) Arr.WNk ∧
      List.Perm (indices_of Arr.Y tr) (List.range (2 ^ 2)) :=
  butterfly_indexing_safe (fun _ => (⟨-1, 0⟩ : Complex ℤ)) 2 (by decide) (by decide)
    [⟨1, 0⟩, ⟨2, 0⟩, ⟨3, 0⟩, ⟨4, 1⟩] [0, 0, 0, 0] rfl rfl 4 (by decide) 1 (by decide)

theorem butterfly_accesses_example :
    butterfly_accesses 4 4 2 1 4 = some
      [(Arr.X, 2), (Arr.WNk, 0), (Arr.X, 0), (Arr.Y, 0), (Arr.X, 0), (Arr.Y, 2),
       (Arr.X, 3), (Arr.WNk, 1), (Arr.X, 1), (Arr.Y, 1), (Arr.X, 1), (Arr.Y, 3)] := by
  decide

/-! ## Index safety of the recursive transform -/

theorem recursive_calls_valid (Q : Nat) (hQ1 : 1 ≤ Q) (hQ : Q ≤ 30) :
    ∀ fuel, Q < fuel → ∀ L, L ∈ recursive_calls fuel ((2 : Int) ^ Q) →
      ∃ q : Nat, 1 ≤ q ∧ q ≤ Q ∧ L = (2 : Int) ^ q := by
  induction Q, hQ1 using Nat.le_induction with
  | base =>
    intro fuel hf L hL
    obtain ⟨fuel, rfl⟩ : ∃ f, fuel = f + 1 := ⟨fuel - 1, by omega⟩
    rw [recursive_calls, if_pos (by norm_num)] at hL
    exact ⟨1, le_rfl, le_rfl, by simpa using hL⟩
  | succ Q hQ1 ih =>
    intro fuel hf L hL
    obtain ⟨fuel, rfl⟩ : ∃ f, fuel = f + 1 := ⟨fuel - 1, by omega⟩
    have hlt : (2 : Int) ^ 1 < 2 ^ (Q + 1) := two_pow_lt_int 1 (Q + 1) (by omega)
    have hne : ¬ ((2 : Int) ^ (Q + 1) = 2) := by omega
    have hgt : ¬ ¬ ((2 : Int) ^ (Q + 1) > 2) := by omega
    have hloop := length_loop_valid (Q + 1) hQ (fuel + 1) hf
    rw [recursive_calls, if_neg hne, if_neg hgt, hloop] at hL
    simp only [not_true_eq_false, if_false, int_pow_succ_div, List.mem_cons, List.mem_append,
      or_self] at hL
    rcases hL with rfl | hL
    · exact ⟨Q + 1, by omega, le_rfl, rfl⟩
    · obtain ⟨q, h1, h2, h3⟩ := ih (by omega) fuel (by omega) L hL
      exact ⟨q, h1, by omega, h3⟩

theorem recursive_accesses_eq (Q : Nat) (hQ1 : 1 ≤ Q) :
    recursive_accesses ((2 : Int) ^ (Q + 1)) =
      [(Arr.WNk, 0)]
        ++ (List.range' 1 (2 ^ Q - 1)).flatMap (fun k => [(Arr.WNk, k - 1), (Arr.WNk, k)])
        ++ (List.range (2 ^ Q)).flatMap (fun i =>
            [(Arr.inp, i * 2), (Arr.XL, i), (Arr.inp, i * 2 + 1), (Arr.XH, i)])
        ++ (List.range (2 ^ Q)).flatMap (fun i =>
            [(Arr.WNk, i), (Arr.H, i), (Arr.G, i), (Arr.out, i), (Arr.G, i),
              (Arr.out, 2 ^ Q + i)]) := by
  have hlt : (2 : Int) ^ 1 < 2 ^ (Q + 1) := two_pow_lt_int 1 (Q + 1) (by omega)
  have hne : ¬ ((2 : Int) ^ (Q + 1) = 2) := by omega
  unfold recursive_accesses
  rw [if_neg hne]
  simp only [int_pow_succ_div, int_pow_toNat, append_loop, Nat.sub_zero,
    ← List.range_eq_range']

/-- Every access of a call of validated length `2^q`, `q ≥ 1`, is inside its array, and the
indices at which `out` is written are a rearrangement of `0, .., 2^q - 1`. -/
theorem recursive_accesses_safe (q : Nat) (hq : 1 ≤ q) :
    (∀ e, e ∈ recursive_accesses ((2 : Int) ^ q) → e.2 < recursive_size ((2 : Int) ^ q) e.1) ∧
    List.Perm (indices_of Arr.out (recursive_accesses ((2 : Int) ^ q))) (List.range (2 ^ q)) := by
  obtain ⟨P, rfl⟩ : ∃ P, q = P + 1 := ⟨q - 1, by omega⟩
  by_cases hP : P = 0
  · subst hP
    constructor
    · intro e he
      have : recursive_accesses ((2 : Int) ^ (0 + 1)) =
          [(Arr.inp, 0), (Arr.inp, 1), (Arr.out, 0), (Arr.inp, 0), (Arr.inp, 1), (Arr.out, 1)] := by
        decide
      rw [this] at he
      simp only [List.mem_cons, List.mem_singleton, List.not_mem_nil, or_false] at he
      rcases he with rfl | rfl | rfl | rfl | rfl | rfl <;> decide
    · decide
  · have hpos : 0 < 2 ^ P := by positivity
    have h2 : 2 ^ (P + 1) = 2 ^ P + 2 ^ P := by rw [pow_succ]; omega
    rw [recursive_accesses_eq P (by omega)]
    constructor
    · intro e he
      simp only [List.mem_append, List.mem_flatMap, List.mem_range, List.mem_range'_1,
        List.mem_cons, List.mem_singleton, List.not_mem_nil, or_false] at he
      rcases he with ((rfl | ⟨k, hk, rfl | rfl⟩) | ⟨i, hi, rfl | rfl | rfl | rfl⟩) |
          ⟨i, hi, rfl | rfl | rfl | rfl | rfl | rfl⟩ <;>
        simp only [recursive_size, int_pow_succ_div, int_pow_toNat] <;> omega
    · have e1 : indices_of Arr.out [(Arr.WNk, 0)] = [] := by decide
      have e2 : (fun k : Nat => indices_of Arr.out [(Arr.WNk, k - 1), (Arr.WNk, k)])
          = (fun _ => []) := by
        funext k; simp [indices_of]
      have e3 : (fun i : Nat => indices_of Arr.out
          [(Arr.inp, i * 2), (Arr.XL, i), (Arr.inp, i * 2 + 1), (Arr.XH, i)])
          = (fun _ => []) := by
        funext i; simp [indices_of]
      have e4 : (fun i : Nat => indices_of Arr.out
          [(Arr.WNk, i), (Arr.H, i), (Arr.G, i), (Arr.out, i), (Arr.G, i),
            (Arr.out, 2 ^ P + i)])
          = (fun i => [0 + i, 0 + i + 2 ^ P]) := by
        funext i; simp [indices_of, Nat.add_comm]
      have hsplit : ∀ a b : List (Arr × Nat),
          indices_of Arr.out (a ++ b) = indices_of Arr.out a ++ indices_of Arr.out b := by
        intro a b; simp [indices_of]
      have hnil : ∀ l : List Nat, l.flatMap (fun _ => ([] : List Nat)) = [] := by
        intro l; induction l with
        | nil => rfl
        | cons a l ih => simp
      rw [hsplit, hsplit, hsplit, indices_of_flatMap, indices_of_flatMap, indices_of_flatMap,
        e1, e2, e3, e4, hnil, hnil, List.nil_append, List.nil_append]
      have := pairs_perm_block 0 (2 ^ P)
      rw [← List.range_eq_range'] at this
      rw [h2, ← two_mul]
      exact this

section
variable {R : Type} [CommRing R]

/-- C17: for a valid length `N = 2^Q` (`Q ≥ 1`, `N` an `int`) `fft_recursive` returns, so no
assertion fails at any level; every call in the recursion receives a power of two `≥ 2`; in
every call each access is inside its array (`in`, `out` of the size of the call, `WNk`, `XL`,
`XH`, `G`, `H` of half that size, which are the sizes the arrays have), and the indices at
which `out` is written are a rearrangement of `0, .., N-1`. -/
theorem fft_recursive_safe (W : Int → Complex R) (Q : Nat) (hQ1 : 1 ≤ Q)
    (hint : (2 : Int) ^ Q ≤ INT_MAX) (inp out : List (Complex R))
    (hin : inp.length = 2 ^ Q) (hout : out.length = 2 ^ Q) (fuel : Nat) (hf : Q < fuel) :
    (∃ res, fft_recursive W fuel inp out ((2 : Int) ^ Q) = Outcome.returned res) ∧
    (∀ L, L ∈ recursive_calls fuel ((2 : Int) ^ Q) →
      (∃ q : Nat, 1 ≤ q ∧ L = (2 : Int) ^ q) ∧
      (∀ e, e ∈ recursive_accesses L → e.2 < recursive_size L e.1) ∧
      List.Perm (indices_of Arr.out (recursive_accesses L)) (List.range L.toNat)) ∧
    inp.length = recursive_size ((2 : Int) ^ Q) Arr.inp ∧
    out.length = recursive_size ((2 : Int) ^ Q) Arr.out ∧
    (2 ≤ Q →
      (WNk_recursive (W ((2 : Int) ^ Q)) ((2 : Int) ^ Q)).length
        = recursive_size ((2 : Int) ^ Q) Arr.WNk ∧
      (decimation_split (0 : Complex R) inp (2 ^ Q / 2)).1.length
        = recursive_size ((2 : Int) ^ Q) Arr.XL ∧
      (decimation_split (0 : Complex R) inp (2 ^ Q / 2)).2.length
        = recursive_size ((2 : Int) ^ Q) Arr.XH ∧
      ∀ XLH G, fft_recursive W (fuel - 1) XLH (List.replicate (2 ^ Q / 2) 0)
          ((2 : Int) ^ Q / 2) = Outcome.returned G →
        G.length = recursive_size ((2 : Int) ^ Q) Arr.G ∧
        G.length = recursive_size ((2 : Int) ^ Q) Arr.H) := by
  have hQ := int_max_log Q hint
  refine ⟨⟨_, fft_recursive_eq W Q hQ1 hQ fuel inp out hf (by omega)⟩, fun L hL => ?_,
    by simp [recursive_size, int_pow_toNat, hin], by simp [recursive_size, int_pow_toNat, hout],
    fun hQ2 => ?_⟩
  · obtain ⟨q, h1, -, rfl⟩ := recursive_calls_valid Q hQ1 hQ fuel hf L hL
    have hs := recursive_accesses_safe q h1
    rw [int_pow_toNat]
    exact ⟨⟨q, h1, rfl⟩, hs.1, hs.2⟩
  · obtain ⟨P, rfl⟩ : ∃ P, Q = P + 1 := ⟨Q - 1, by omega⟩
    have hhalf : 2 ^ (P + 1) / 2 = 2 ^ P := by rw [pow_succ]; omega
    have hT := twiddle_loop (W ((2 : Int) ^ (P + 1))) (2 ^ P) Nat.one_le_two_pow
    have hS := decimation_split_spec (0 : Complex R) inp (2 ^ P)
    simp only [recursive_size, int_pow_succ_div, int_pow_toNat, hhalf]
    refine ⟨?_, hS.1, hS.2.1, fun XLH G hG => ?_⟩
    · unfold WNk_recursive
      simp only [int_pow_succ_div, int_pow_toNat]
      exact hT.1
    · obtain ⟨res, hr, hl, -⟩ := fft_recursive_dit W P (by omega) (by omega) (fuel - 1) XLH
        (List.replicate (2 ^ P) 0) (by omega) (by simp)
      rw [hr] at hG
      cases hG
      simp [hl]

end

/-- C17 at `N = 4` over the integers. -/
theorem fft_recursive_safe_witness :
    (∃ res, fft_recursive (fun _ => (⟨-1, 0⟩ : Complex ℤ)) 3 [⟨1, 0⟩, ⟨2, 0⟩, ⟨3, 0⟩, ⟨4, 1⟩]
        [0, 0, 0, 0] ((2 : Int) ^ 2) = Outcome.returned res) ∧
    (∀ L, L ∈ recursive_calls 3 ((2 : Int) ^ 2) →
      (∃ q : Nat, 1 ≤ q ∧ L = (2 : Int) ^ q) ∧
      (∀ e, e ∈ recursive_accesses L → e.2 < recursive_size L e.1) ∧
      List.Perm (indices_of Arr.out (recursive_accesses L)) (List.range L.toNat)) ∧
    List.length ([⟨1, 0⟩, ⟨2, 0⟩, ⟨3, 0⟩, ⟨4, 1⟩] : List (Complex ℤ))
      = recursive_size ((2 : Int) ^ 2) Arr.inp ∧
    List.length ([0, 0, 0, 0] : List (Complex ℤ)) = recursive_size ((2 : Int) ^ 2) Arr.out ∧
    (2 ≤ 2 →
      (WNk_recursive ((fun _ => (⟨-1, 0⟩ : Complex ℤ)) ((2 : Int) ^ 2)) ((2 : Int) ^ 2)).length
        = recursive_size ((2 : Int) ^ 2) Arr.WNk ∧
      (decimation_split (0 : Complex ℤ) [⟨1, 0⟩, ⟨2, 0⟩, ⟨3, 0⟩, ⟨4, 1⟩] (2 ^ 2 / 2)).1.length
        = recursive_size ((2 : Int) ^ 2) Arr.XL ∧
      (decimation_split (0 : Complex ℤ) [⟨1, 0⟩, ⟨2, 0⟩, ⟨3, 0⟩, ⟨4, 1⟩] (2 ^ 2 / 2)).2.length
        = recursive_size ((2 : Int) ^ 2) Arr.XH ∧
      ∀ XLH G, fft_recursive (fun _ => (⟨-1, 0⟩ : Complex ℤ)) (3 - 1) XLH
          (List.replicate (2 ^ 2 / 2) 0) ((2 : Int) ^ 2 / 2) = Outcome.returned G →
        G.length = recursive_size ((2 : Int) ^ 2) Arr.G ∧
        G.length = recursive_size ((2 : Int) ^ 2) Arr.H) :=
  fft_recursive_safe (fun _ => (⟨-1, 0⟩ : Complex ℤ)) 2 (by decide) (by decide)
    [⟨1, 0⟩, ⟨2, 0⟩, ⟨3, 0⟩, ⟨4, 1⟩] [0, 0, 0, 0] rfl rfl 3 (by decide)

theorem recursive_calls_example : recursive_calls 4 8 = [8, 4, 2, 2, 4, 2, 2] := by
  decide

end shk
